import Mathlib

/-!
Verification of the ferris-lang pipeline (lexer, parser, tree-walking
interpreter) against its natural-language specification.

The embedding follows the Rust sources closely:
* `token.rs`   → `TokenType`, `Token`
* `ast.rs`     → `Expr`, `Stmt`, `BinaryOp`, `UnaryOp`
* `value.rs`   → `Value`, `displayValue`
* `lexer.rs`   → `skipWs`, `nextToken`, `tokenize`, …
* `parser.rs`  → `ParserFns`, `parserFns`, `parseTokens`, …
* `interpreter.rs` → `applyBinaryOp`, `evaluateExpr`, `executeStmt`, …

Rust `f64` is idealised as `ℚ` (exact rational arithmetic, the standard
shallow embedding of float code without NaN/rounding concerns); machine
casts (`as i64`) keep their saturating behaviour.  Statement execution and
the recursive-descent parser use explicit fuel (via `Nat.rec`, so that
everything reduces in the kernel); termination claims become
fuel-sufficiency theorems.
-/

namespace Ferris

/-! ## Value model (`value.rs`) and AST (`ast.rs`) -/

inductive Value where
  | number : ℚ → Value
  | string : String → Value
  | boolean : Bool → Value
deriving DecidableEq, Repr

inductive BinaryOp where
  | add | subtract | multiply | divide
  | equal | notEqual | less | greater | lessEqual | greaterEqual
deriving DecidableEq, Repr

inductive UnaryOp where
  | minus
deriving DecidableEq, Repr

inductive Expr where
  | number : ℚ → Expr
  | string : String → Expr
  | identifier : String → Expr
  | binary : Expr → BinaryOp → Expr → Expr
  | unary : UnaryOp → Expr → Expr
deriving DecidableEq, Repr

inductive Stmt where
  | expression : Expr → Stmt
  | letStmt : String → Expr → Stmt
  | assignment : String → Expr → Stmt
  | ifStmt : Expr → Stmt → Option Stmt → Stmt
  | whileStmt : Expr → Stmt → Stmt
  | block : List Stmt → Stmt
  | print : Expr → Stmt
deriving Repr

/-! ## Number display

`value.rs` displays a number with Rust's `Display` for `f64`
(`write!(f, "{}", n)`), and the string/number concatenation arms of
`apply_binary_op` format `n as i64` when `n.fract() == 0.0`.
We embed decimal digit printing directly. -/

def digitChar (n : Nat) : Char := Char.ofNat (48 + n)

/-- Decimal digits of a natural number, most significant first.
The first argument is fuel; `natDigits` below supplies enough. -/
def natDigitsAux : Nat → Nat → List Char
  | 0, _ => []
  | fuel + 1, n =>
    if n < 10 then [digitChar n]
    else natDigitsAux fuel (n / 10) ++ [digitChar (n % 10)]

def natDigits (n : Nat) : List Char := natDigitsAux (n + 1) n

def natToString (n : Nat) : String := ⟨natDigits n⟩

/-- Rust `i64` `Display`. -/
def intToString (i : Int) : String :=
  if i < 0 then "-" ++ natToString i.natAbs else natToString i.toNat

/-- Truncation toward zero, as in Rust `f64::trunc` / `as i64` (before
saturation): on a reduced fraction this is truncating integer division of
the numerator by the denominator. -/
def ratTrunc (q : ℚ) : Int := Int.tdiv q.num q.den

/-- Rust `f64::fract`: `self - self.trunc()`. -/
def ratFract (q : ℚ) : ℚ := q - ratTrunc q

/-- Rust float-to-integer casts saturate at the target type's bounds. -/
def i64Sat (i : Int) : Int := max (-(2 ^ 63)) (min (2 ^ 63 - 1) i)

/-- Digits after the decimal point of a rational in `[0, 1)`, printed until
the remainder is zero or fuel runs out. -/
def fracDigitsAux : Nat → ℚ → List Char
  | 0, _ => []
  | fuel + 1, q =>
    if q = 0 then []
    else
      let q10 := q * 10
      digitChar (ratTrunc q10).toNat :: fracDigitsAux fuel (q10 - ratTrunc q10)

def displayF64Pos (q : ℚ) : String :=
  let f := ratFract q
  if f = 0 then natToString (ratTrunc q).toNat
  else natToString (ratTrunc q).toNat ++ "." ++ ⟨fracDigitsAux 1200 f⟩

/-- Rust `Display` for `f64` (idealised to exact decimal expansion; on the
dyadic rationals produced by literals this agrees with Rust's shortest
round-trip output). -/
def displayF64 (q : ℚ) : String :=
  if q < 0 then "-" ++ displayF64Pos (-q) else displayF64Pos q

/-- The number-to-text conversion used by the string/number concatenation
arms of `apply_binary_op`: `if n.fract() == 0.0 { format!("{}", n as i64) }
else { format!("{}", n) }`. -/
def numberConcatText (n : ℚ) : String :=
  if ratFract n = 0 then intToString (i64Sat (ratTrunc n)) else displayF64 n

/-- `Display` for `Value` (`value.rs`). -/
def displayValue : Value → String
  | .number n => displayF64 n
  | .string s => s
  | .boolean b => if b then "true" else "false"

/-! ## Binary and unary operators (`interpreter.rs`) -/

/-- `f64::EPSILON = 2⁻⁵²`. -/
def f64Epsilon : ℚ := 1 / 2 ^ 52

/-- `Interpreter::apply_binary_op`. -/
def applyBinaryOp (left : Value) (op : BinaryOp) (right : Value) :
    Except String Value :=
  match left, right with
  | .number l, .number r =>
    match op with
    | .add => .ok (.number (l + r))
    | .subtract => .ok (.number (l - r))
    | .multiply => .ok (.number (l * r))
    | .divide =>
      if r = 0 then .error "Division by zero"
      else .ok (.number (l / r))
    | .equal => .ok (.boolean (decide (|l - r| < f64Epsilon)))
    | .notEqual => .ok (.boolean (decide (f64Epsilon ≤ |l - r|)))
    | .less => .ok (.boolean (decide (l < r)))
    | .greater => .ok (.boolean (decide (r < l)))
    | .lessEqual => .ok (.boolean (decide (l ≤ r)))
    | .greaterEqual => .ok (.boolean (decide (r ≤ l)))
  | .string l, .string r =>
    match op with
    | .add => .ok (.string (l ++ r))
    | .equal => .ok (.boolean (decide (l = r)))
    | .notEqual => .ok (.boolean (decide (l ≠ r)))
    | _ => .error "Invalid operation for strings"
  | .string s, .number n =>
    match op with
    | .add => .ok (.string (s ++ numberConcatText n))
    | _ => .error "Invalid operation for string and number"
  | .number n, .string s =>
    match op with
    | .add => .ok (.string (numberConcatText n ++ s))
    | _ => .error "Invalid operation for number and string"
  | _, _ => .error "Invalid operands for binary operation"

/-- `Interpreter::apply_unary_op`. -/
def applyUnaryOp (op : UnaryOp) (operand : Value) : Except String Value :=
  match op, operand with
  | .minus, .number n => .ok (.number (-n))
  | _, _ => .error "Invalid operand for unary operation"

/-- `Interpreter::is_truthy`. -/
def isTruthy : Value → Bool
  | .boolean b => b
  | .number n => decide (n ≠ 0)
  | .string s => !s.isEmpty

/-! ## Environment (`HashMap<String, Value>` as a finite map) -/

/-- `HashMap::insert` (overwrite semantics). -/
def envInsert : List (String × Value) → String → Value → List (String × Value)
  | [], k, v => [(k, v)]
  | (k1, v1) :: rest, k, v =>
    if k1 = k then (k, v) :: rest else (k1, v1) :: envInsert rest k v

/-- `HashMap::get`. -/
def envGet : List (String × Value) → String → Option Value
  | [], _ => none
  | (k1, v1) :: rest, k => if k1 = k then some v1 else envGet rest k

/-- `HashMap::contains_key`. -/
def envContains (env : List (String × Value)) (k : String) : Bool :=
  (envGet env k).isSome

/-- Interpreter state: the flat global environment plus the lines written
to standard output by `print` (in order). -/
structure InterpSt where
  globals : List (String × Value)
  output : List String
deriving DecidableEq, Repr

/-- `Interpreter::new()`. -/
def initialInterpSt : InterpSt := { globals := [], output := [] }

/-! ## Expression evaluation (`Interpreter::evaluate_expr`) -/

def evaluateExpr (globals : List (String × Value)) : Expr → Except String Value
  | .number n => .ok (.number n)
  | .string s => .ok (.string s)
  | .identifier name =>
    match envGet globals name with
    | some v => .ok v
    | none => .error ("Undefined variable \x27" ++ name ++ "\x27")
  | .binary l op r =>
    match evaluateExpr globals l with
    | .error e => .error e
    | .ok lv =>
      match evaluateExpr globals r with
      | .error e => .error e
      | .ok rv => applyBinaryOp lv op rv
  | .unary op operand =>
    match evaluateExpr globals operand with
    | .error e => .error e
    | .ok v => applyUnaryOp op v

/-! ## Statement execution (`Interpreter::execute_stmt`, `interpret`)

Execution is given explicit fuel; each `Nat.rec` layer is one call of
`execute_stmt` (in particular one `while` iteration costs one layer).
Running out of fuel is distinguished from a runtime error, so that
theorems about errors cannot be satisfied by divergence. -/

inductive RunRes where
  | ok
  | err : String → RunRes
  | fuelOut
deriving DecidableEq, Repr

/-- The `for stmt in statements` loops of `interpret` and of the `Block`
arm, parameterised by the executor for a single statement. -/
def execSeq (exec : Stmt → InterpSt → RunRes × InterpSt) :
    List Stmt → InterpSt → RunRes × InterpSt
  | [], st => (.ok, st)
  | s :: rest, st =>
    match exec s st with
    | (.ok, st1) => execSeq exec rest st1
    | (r, st1) => (r, st1)

/-- One layer of `execute_stmt`; `ih` executes nested statements. -/
def execStep (ih : Stmt → InterpSt → RunRes × InterpSt) :
    Stmt → InterpSt → RunRes × InterpSt
  | .expression e, st =>
    match evaluateExpr st.globals e with
    | .ok _ => (.ok, st)
    | .error msg => (.err msg, st)
  | .letStmt name value, st =>
    match evaluateExpr st.globals value with
    | .ok v => (.ok, { st with globals := envInsert st.globals name v })
    | .error msg => (.err msg, st)
  | .assignment name value, st =>
    match evaluateExpr st.globals value with
    | .ok v =>
      if envContains st.globals name then
        (.ok, { st with globals := envInsert st.globals name v })
      else
        (.err ("Undefined variable \x27" ++ name ++ "\x27"), st)
    | .error msg => (.err msg, st)
  | .ifStmt cond thenStmt elseStmt, st =>
    match evaluateExpr st.globals cond with
    | .ok v =>
      if isTruthy v then ih thenStmt st
      else
        match elseStmt with
        | some s => ih s st
        | none => (.ok, st)
    | .error msg => (.err msg, st)
  | .whileStmt cond body, st =>
    match evaluateExpr st.globals cond with
    | .ok v =>
      if isTruthy v then
        match ih body st with
        | (.ok, st1) => ih (.whileStmt cond body) st1
        | (r, st1) => (r, st1)
      else (.ok, st)
    | .error msg => (.err msg, st)
  | .block stmts, st => execSeq ih stmts st
  | .print e, st =>
    match evaluateExpr st.globals e with
    | .ok v => (.ok, { st with output := st.output ++ [displayValue v] })
    | .error msg => (.err msg, st)

/-- `Interpreter::execute_stmt` with fuel. -/
def executeStmt (fuel : Nat) : Stmt → InterpSt → RunRes × InterpSt :=
  Nat.rec (fun _ st => (RunRes.fuelOut, st)) (fun _ ih => execStep ih) fuel

theorem executeStmt_zero : executeStmt 0 = fun _ st => (RunRes.fuelOut, st) := rfl

theorem executeStmt_succ (fuel : Nat) :
    executeStmt (fuel + 1) = execStep (executeStmt fuel) := rfl

/-- `Interpreter::interpret`: run the statements in order against the
state, stopping at the first failure. -/
def interpret (fuel : Nat) (statements : List Stmt) (st : InterpSt) :
    RunRes × InterpSt :=
  execSeq (executeStmt fuel) statements st

/-! ## Digit strings contain no dot -/

theorem digitChar_ne_dot (n : Nat) (h : n < 10) : digitChar n ≠ '.' := by
  interval_cases n <;> decide

theorem dot_not_mem_natDigitsAux (fuel : Nat) :
    ∀ n : Nat, ('.' : Char) ∉ natDigitsAux fuel n := by
  induction fuel with
  | zero => intro n; simp [natDigitsAux]
  | succ f ih =>
    intro n
    simp only [natDigitsAux]
    split
    · intro hmem
      rw [List.mem_singleton] at hmem
      exact digitChar_ne_dot n (by assumption) hmem.symm
    · intro hmem
      rcases List.mem_append.mp hmem with h1 | h2
      · exact ih _ h1
      · rw [List.mem_singleton] at h2
        exact digitChar_ne_dot _ (Nat.mod_lt _ (by norm_num)) h2.symm

theorem dot_not_mem_natToString (n : Nat) : ('.' : Char) ∉ (natToString n).data :=
  dot_not_mem_natDigitsAux _ _

theorem dot_not_mem_intToString (i : Int) : ('.' : Char) ∉ (intToString i).data := by
  unfold intToString
  split
  · intro hmem
    have : (("-" ++ natToString i.natAbs : String)).data
        = '-' :: (natToString i.natAbs).data := rfl
    rw [this] at hmem
    rcases List.mem_cons.mp hmem with h | h
    · exact absurd h (by decide)
    · exact dot_not_mem_natToString _ h
  · exact dot_not_mem_natToString _

/-- A string ends with the two characters `.0`. -/
def hasTrailingDotZero (s : String) : Prop :=
  ∃ t, s.data = t ++ ['.', '0']

theorem not_trailingDotZero_of_no_dot (s : String)
    (h : ('.' : Char) ∉ s.data) : ¬ hasTrailingDotZero s := by
  rintro ⟨t, ht⟩
  apply h
  rw [ht]
  simp

/-! ## Claim theorems: binary-operator semantics -/

/-- C1: `+` on a String and a Number (either order) succeeds with the
concatenation, the number rendered by the source's formatting rule:
integer text (no trailing `.0`) when the fractional part is zero, default
decimal text otherwise; every other binary operator on these type pairs
fails with the corresponding invalid-operation error. -/
theorem string_number_concat_semantics (s : String) (n : ℚ) (op : BinaryOp) :
    applyBinaryOp (.string s) .add (.number n)
      = .ok (.string (s ++ numberConcatText n)) ∧
    applyBinaryOp (.number n) .add (.string s)
      = .ok (.string (numberConcatText n ++ s)) ∧
    (op ≠ .add →
      applyBinaryOp (.string s) op (.number n)
        = .error "Invalid operation for string and number" ∧
      applyBinaryOp (.number n) op (.string s)
        = .error "Invalid operation for number and string") ∧
    (ratFract n = 0 →
      numberConcatText n = intToString (i64Sat (ratTrunc n)) ∧
      ¬ hasTrailingDotZero (numberConcatText n)) ∧
    (ratFract n ≠ 0 → numberConcatText n = displayF64 n) := by
  refine ⟨rfl, rfl, ?_, ?_, ?_⟩
  · intro hop
    cases op <;> first | exact absurd rfl hop | exact ⟨rfl, rfl⟩
  · intro h
    have he : numberConcatText n = intToString (i64Sat (ratTrunc n)) := by
      unfold numberConcatText
      rw [if_pos h]
    refine ⟨he, ?_⟩
    rw [he]
    exact not_trailingDotZero_of_no_dot _ (dot_not_mem_intToString _)
  · intro h
    unfold numberConcatText
    rw [if_neg h]

unseal Rat.add Rat.mul Rat.sub Rat.inv in
theorem string_number_concat_semantics_witness :
    applyBinaryOp (.string "Count: ") .add (.number 5)
      = .ok (.string "Count: 5") ∧
    applyBinaryOp (.string "Pi: ") .add (.number (7 / 2))
      = .ok (.string "Pi: 3.5") ∧
    applyBinaryOp (.string "x") .multiply (.number 5)
      = .error "Invalid operation for string and number" ∧
    applyBinaryOp (.number 5) .less (.string "x")
      = .error "Invalid operation for number and string" ∧
    ¬ hasTrailingDotZero (numberConcatText 5) := by
  refine ⟨?_, ?_, ?_, ?_, ?_⟩
  · rw [(string_number_concat_semantics "Count: " 5 .multiply).1,
      show numberConcatText 5 = "5" from by decide]
    rfl
  · rw [(string_number_concat_semantics "Pi: " (7 / 2) .multiply).1,
      show numberConcatText (7 / 2) = "3.5" from by decide]
    rfl
  · exact ((string_number_concat_semantics "x" 5 .multiply).2.2.1 (by decide)).1
  · exact ((string_number_concat_semantics "x" 5 .less).2.2.1 (by decide)).2
  · exact ((string_number_concat_semantics "" 5 .add).2.2.2.1 (by decide)).2

/-- C2: on two Numbers, `==` is epsilon-tolerant (`|l-r| < f64::EPSILON`),
`!=` is the boolean negation of that same condition, and the four ordering
operators are ordinary comparisons. -/
theorem number_comparison_semantics (l r : ℚ) :
    applyBinaryOp (.number l) .equal (.number r)
      = .ok (.boolean (decide (|l - r| < f64Epsilon))) ∧
    applyBinaryOp (.number l) .notEqual (.number r)
      = .ok (.boolean (!decide (|l - r| < f64Epsilon))) ∧
    applyBinaryOp (.number l) .less (.number r)
      = .ok (.boolean (decide (l < r))) ∧
    applyBinaryOp (.number l) .greater (.number r)
      = .ok (.boolean (decide (l > r))) ∧
    applyBinaryOp (.number l) .lessEqual (.number r)
      = .ok (.boolean (decide (l ≤ r))) ∧
    applyBinaryOp (.number l) .greaterEqual (.number r)
      = .ok (.boolean (decide (l ≥ r))) := by
  refine ⟨rfl, ?_, rfl, rfl, rfl, rfl⟩
  have hb : (!decide (|l - r| < f64Epsilon)) = decide (f64Epsilon ≤ |l - r|) := by
    rw [← decide_not]
    exact decide_eq_decide.mpr not_lt
  rw [hb]
  rfl

/-- C3: dividing two Numbers fails with `DivisionByZero` exactly when the
divisor is zero, and otherwise yields the quotient. -/
theorem division_by_zero_semantics (l r : ℚ) :
    (applyBinaryOp (.number l) .divide (.number r) = .error "Division by zero"
      ↔ r = 0) ∧
    (r ≠ 0 →
      applyBinaryOp (.number l) .divide (.number r) = .ok (.number (l / r))) := by
  constructor
  · constructor
    · intro h
      by_contra hr
      rw [show applyBinaryOp (.number l) .divide (.number r)
            = if r = 0 then .error "Division by zero" else .ok (.number (l / r))
          from rfl, if_neg hr] at h
      exact Except.noConfusion h
    · intro h
      show (if r = 0 then _ else _) = _
      rw [if_pos h]
  · intro h
    show (if r = 0 then _ else _) = _
    rw [if_neg h]

theorem division_by_zero_semantics_witness :
    applyBinaryOp (.number 1) .divide (.number 0) = .error "Division by zero" ∧
    applyBinaryOp (.number 1) .divide (.number 2) = .ok (.number (1 / 2)) :=
  ⟨(division_by_zero_semantics 1 0).1.mpr rfl,
   (division_by_zero_semantics 1 2).2 (by decide)⟩

/-! ## Claim theorems: statement execution -/

/-- C4: `Assign` first evaluates the right-hand side; with the value in
hand it overwrites an existing binding, errs with `UndefinedVariable` on a
missing one leaving the state untouched, and an evaluation error
propagates with the state untouched. -/
theorem assignment_semantics (fuel : Nat) (name : String) (value : Expr)
    (st : InterpSt) :
    (∀ v, evaluateExpr st.globals value = .ok v →
      executeStmt (fuel + 1) (.assignment name value) st =
        if envContains st.globals name then
          (RunRes.ok, { st with globals := envInsert st.globals name v })
        else
          (RunRes.err ("Undefined variable \x27" ++ name ++ "\x27"), st)) ∧
    (∀ e, evaluateExpr st.globals value = .error e →
      executeStmt (fuel + 1) (.assignment name value) st = (.err e, st)) := by
  constructor
  · intro v h
    rw [executeStmt_succ]
    show (match evaluateExpr st.globals value with
      | .ok v =>
        if envContains st.globals name then
          (RunRes.ok, { st with globals := envInsert st.globals name v })
        else (RunRes.err ("Undefined variable \x27" ++ name ++ "\x27"), st)
      | .error msg => (RunRes.err msg, st)) = _
    rw [h]
  · intro e h
    rw [executeStmt_succ]
    show (match evaluateExpr st.globals value with
      | .ok v =>
        if envContains st.globals name then
          (RunRes.ok, { st with globals := envInsert st.globals name v })
        else (RunRes.err ("Undefined variable \x27" ++ name ++ "\x27"), st)
      | .error msg => (RunRes.err msg, st)) = _
    rw [h]

theorem assignment_semantics_witness :
    executeStmt 1 (.assignment "x" (.number 2))
        { globals := [("x", .number 1)], output := [] }
      = (.ok, { globals := [("x", .number 2)], output := [] }) ∧
    executeStmt 1 (.assignment "x" (.number 2)) initialInterpSt
      = (.err "Undefined variable \x27x\x27", initialInterpSt) := by
  constructor
  · rw [(assignment_semantics 0 "x" (.number 2)
      { globals := [("x", .number 1)], output := [] }).1 (.number 2) rfl]
    rfl
  · rw [(assignment_semantics 0 "x" (.number 2) initialInterpSt).1
      (.number 2) rfl]
    rfl

/-- C6: a statement sequence runs in order and halts at the first failing
statement with that statement's error; statements after it do not run and
the side effects produced so far (environment and print output) are kept
exactly, with no rollback. -/
theorem first_error_halts (fuel : Nat) (ss1 : List Stmt) (s : Stmt)
    (ss2 : List Stmt) (st st1 st2 : InterpSt) (e : String)
    (h1 : interpret fuel ss1 st = (.ok, st1))
    (h2 : executeStmt fuel s st1 = (.err e, st2)) :
    interpret fuel (ss1 ++ s :: ss2) st = (.err e, st2) := by
  induction ss1 generalizing st with
  | nil =>
    simp only [interpret, List.nil_append, execSeq] at h1 ⊢
    injection h1 with _ hst
    subst hst
    rw [h2]
  | cons head tail ih =>
    simp only [interpret, List.cons_append, execSeq] at h1 ⊢
    cases hh : executeStmt fuel head st with
    | mk r st' =>
      rw [hh] at h1
      cases r with
      | ok => exact ih st' h1
      | err msg => simp at h1
      | fuelOut => simp at h1

theorem first_error_halts_witness :
    interpret 1
        [.print (.string "a"), .print (.identifier "y"), .print (.string "after")]
        initialInterpSt
      = (.err "Undefined variable \x27y\x27",
         { globals := [], output := ["a"] }) := by
  exact first_error_halts 1 [.print (.string "a")] (.print (.identifier "y"))
    [.print (.string "after")] initialInterpSt
    { globals := [], output := ["a"] }
    { globals := [], output := ["a"] }
    "Undefined variable \x27y\x27" rfl rfl

unseal Rat.add Rat.mul Rat.sub Rat.inv in
/-- C8: executing a `Block` executes its members against the very same
flat global state (no scope is pushed or popped), so an assignment inside
a block to a variable declared outside persists after the block, and
bindings made inside remain visible. -/
theorem block_flat_scope (fuel : Nat) (ss : List Stmt) (st : InterpSt) :
    executeStmt (fuel + 1) (.block ss) st = interpret fuel ss st ∧
    interpret 3
        [.letStmt "x" (.number 1),
         .block [.assignment "x" (.number 2), .letStmt "y" (.number 7)],
         .print (.identifier "x"),
         .print (.identifier "y")]
        initialInterpSt
      = (.ok, { globals := [("x", .number 2), ("y", .number 7)],
                output := ["2", "7"] }) := by
  exact ⟨rfl, by decide⟩

/-! ## Tokens (`token.rs`) -/

inductive TokenType where
  | number : ℚ → TokenType
  | string : String → TokenType
  | identifier : String → TokenType
  | plus | minus | multiply | divide | assign
  | equal | notEqual | less | greater | lessEqual | greaterEqual
  | letKw | ifKw | elseKw | whileKw | printKw
  | leftParen | rightParen | leftBrace | rightBrace | semicolon
  | eof
deriving DecidableEq, Repr

structure Token where
  token_type : TokenType
  line : Nat
deriving DecidableEq, Repr

/-! ## Scanner (`lexer.rs`)

The lexer state is the remaining input (the Rust code keeps the whole
input and an index; the suffix from the index onward is what `peek`,
`peek_next` and `advance` observe) plus the current 1-based line.
`advance` bumps the line on every `\n` consumed; `lineBump` captures
that. The only loop that cannot be phrased as structural recursion on the
remaining input (`skip_whitespace`, whose comment branch re-enters after
`skip_line_comment`) takes fuel; callers pass `length + 1`, which is
always sufficient. Unicode classification functions are idealised to
their ASCII restrictions. -/

structure LexSt where
  input : List Char
  line : Nat
deriving DecidableEq, Repr

def lineBump (c : Char) (line : Nat) : Nat :=
  if c = '\n' then line + 1 else line

/-- `Lexer::skip_line_comment`: consume up to, not including, the next
newline. -/
def skipLineComment : List Char → List Char
  | [] => []
  | c :: rest => if c = '\n' then c :: rest else skipLineComment rest

/-- `Lexer::skip_whitespace` (also skips `//` comments). -/
def skipWs : Nat → LexSt → LexSt
  | 0, st => st
  | fuel + 1, st =>
    match st.input with
    | [] => st
    | c :: rest =>
      if c.isWhitespace then skipWs fuel ⟨rest, lineBump c st.line⟩
      else if c = '/' ∧ rest.head? = some '/' then
        skipWs fuel ⟨skipLineComment rest.tail, st.line⟩
      else st

/-- `Lexer::read_number`'s character loop: the maximal run of ASCII
digits and dots, together with the rest of the input. -/
def readNumChars : List Char → List Char × List Char
  | [] => ([], [])
  | c :: rest =>
    if c.isDigit ∨ c = '.' then
      let p := readNumChars rest
      (c :: p.1, p.2)
    else ([], c :: rest)

/-- `Lexer::read_identifier`'s character loop. -/
def readIdentChars : List Char → List Char × List Char
  | [] => ([], [])
  | c :: rest =>
    if c.isAlphanum ∨ c = '_' then
      let p := readIdentChars rest
      (c :: p.1, p.2)
    else ([], c :: rest)

def splitOnDot : List Char → List (List Char)
  | [] => [[]]
  | c :: rest =>
    let ps := splitOnDot rest
    if c = '.' then [] :: ps
    else
      match ps with
      | [] => [[c]]
      | p :: pr => (c :: p) :: pr

def digitsToNat (cs : List Char) : Nat :=
  cs.foldl (fun acc c => acc * 10 + (c.toNat - 48)) 0

/-- Rust `str::parse::<f64>()` restricted to runs of digits and dots (the
only inputs `read_number` feeds it), idealised to exact rational values:
at most one dot, and at least one digit somewhere, else it fails. -/
def parseF64Run (cs : List Char) : Option ℚ :=
  match splitOnDot cs with
  | [ip] => if ip = [] then none else some (digitsToNat ip : ℚ)
  | [ip, fp] =>
    if ip = [] ∧ fp = [] then none
    else some ((digitsToNat ip : ℚ) + (digitsToNat fp : ℚ) / (10 : ℚ) ^ fp.length)
  | _ => none

/-- Escape-sequence handling inside `Lexer::read_string`: recognized
escapes map to their character, anything else keeps the backslash. -/
def escMap (e : Char) : List Char :=
  match e with
  | 'n' => ['\n']
  | 't' => ['\t']
  | 'r' => ['\r']
  | '\\' => ['\\']
  | '"' => ['"']
  | _ => ['\\', e]

/-- `Lexer::read_string` after the opening quote: returns the decoded
characters, the rest of the input and the updated line. An unterminated
string consumes to end of input. -/
def readStringAux : List Char → Nat → List Char × List Char × Nat
  | [], line => ([], [], line)
  | c :: rest, line =>
    if c = '"' then ([], rest, line)
    else if c = '\\' then
      match rest with
      | [] => ([], [], line)
      | e :: rest2 =>
        let p := readStringAux rest2 (lineBump e line)
        (escMap e ++ p.1, p.2.1, p.2.2)
    else
      let p := readStringAux rest (lineBump c line)
      (c :: p.1, p.2.1, p.2.2)

def keywordOrIdent (s : String) : TokenType :=
  match s with
  | "let" => .letKw
  | "if" => .ifKw
  | "else" => .elseKw
  | "while" => .whileKw
  | "print" => .printKw
  | _ => .identifier s

/-- Result of `Lexer::next_token`: a token with the successor state, a
fatal lexical error (Rust panics), or fuel exhaustion. -/
inductive NextRes where
  | tok : Token → LexSt → NextRes
  | fatal : String → NextRes
  | fuelOut
deriving DecidableEq, Repr

/-- `Lexer::next_token`. Fuel only guards the recursive call in the `/`
branch (comment handling that `skip_whitespace` already makes
unreachable). -/
def nextToken : Nat → LexSt → NextRes
  | 0, _ => .fuelOut
  | fuel + 1, st0 =>
    let st := skipWs (st0.input.length + 1) st0
    let line := st.line
    match st.input with
    | [] => .tok ⟨.eof, line⟩ st
    | c :: rest =>
      match c with
      | '+' => .tok ⟨.plus, line⟩ ⟨rest, line⟩
      | '-' => .tok ⟨.minus, line⟩ ⟨rest, line⟩
      | '*' => .tok ⟨.multiply, line⟩ ⟨rest, line⟩
      | '/' =>
        match rest with
        | '/' :: rest2 => nextToken fuel ⟨skipLineComment rest2, line⟩
        | _ => .tok ⟨.divide, line⟩ ⟨rest, line⟩
      | '=' =>
        match rest with
        | '=' :: rest2 => .tok ⟨.equal, line⟩ ⟨rest2, line⟩
        | _ => .tok ⟨.assign, line⟩ ⟨rest, line⟩
      | '!' =>
        match rest with
        | '=' :: rest2 => .tok ⟨.notEqual, line⟩ ⟨rest2, line⟩
        | _ => .fatal ("Unexpected character \x27!\x27 at line " ++ natToString line)
      | '<' =>
        match rest with
        | '=' :: rest2 => .tok ⟨.lessEqual, line⟩ ⟨rest2, line⟩
        | _ => .tok ⟨.less, line⟩ ⟨rest, line⟩
      | '>' =>
        match rest with
        | '=' :: rest2 => .tok ⟨.greaterEqual, line⟩ ⟨rest2, line⟩
        | _ => .tok ⟨.greater, line⟩ ⟨rest, line⟩
      | '(' => .tok ⟨.leftParen, line⟩ ⟨rest, line⟩
      | ')' => .tok ⟨.rightParen, line⟩ ⟨rest, line⟩
      | '{' => .tok ⟨.leftBrace, line⟩ ⟨rest, line⟩
      | '}' => .tok ⟨.rightBrace, line⟩ ⟨rest, line⟩
      | ';' => .tok ⟨.semicolon, line⟩ ⟨rest, line⟩
      | '"' =>
        let p := readStringAux rest line
        .tok ⟨.string ⟨p.1⟩, line⟩ ⟨p.2.1, p.2.2⟩
      | _ =>
        if c.isDigit then
          let p := readNumChars (c :: rest)
          .tok ⟨.number ((parseF64Run p.1).getD 0), line⟩ ⟨p.2, line⟩
        else if c.isAlpha ∨ c = '_' then
          let p := readIdentChars (c :: rest)
          .tok ⟨keywordOrIdent ⟨p.1⟩, line⟩ ⟨p.2, line⟩
        else
          .fatal ("Unexpected character \x27" ++ String.singleton c
            ++ "\x27 at line " ++ natToString line)

/-- Result of `Lexer::tokenize`. -/
inductive LexOutcome where
  | tokens : List Token → LexOutcome
  | fatal : String → LexOutcome
  | fuelOut
deriving DecidableEq, Repr

/-- The `loop` in `Lexer::tokenize`: collect tokens until `Eof` is
pushed. -/
def tokenizeLoop : Nat → LexSt → LexOutcome
  | 0, _ => .fuelOut
  | fuel + 1, st =>
    match nextToken (st.input.length + 1) st with
    | .fuelOut => .fuelOut
    | .fatal msg => .fatal msg
    | .tok t st1 =>
      if t.token_type = .eof then .tokens [t]
      else
        match tokenizeLoop fuel st1 with
        | .tokens ts => .tokens (t :: ts)
        | r => r

/-- `Lexer::tokenize` on a source string (`Lexer::new` starts at line 1). -/
def tokenize (source : String) : LexOutcome :=
  tokenizeLoop (source.data.length + 1) ⟨source.data, 1⟩

/-! ## Scanner lemmas: consumption bounds -/

theorem skipLineComment_le (l : List Char) :
    (skipLineComment l).length ≤ l.length := by
  induction l with
  | nil => simp [skipLineComment]
  | cons c rest ih =>
    simp only [skipLineComment]
    split
    · simp
    · simp
      omega

theorem skipWs_le (fuel : Nat) :
    ∀ st : LexSt, (skipWs fuel st).input.length ≤ st.input.length := by
  induction fuel with
  | zero => intro st; simp [skipWs]
  | succ f ih =>
    intro st
    unfold skipWs
    cases hin : st.input with
    | nil => simp [hin]
    | cons c rest =>
      simp only
      split
      · have h := ih ⟨rest, lineBump c st.line⟩
        simp at h ⊢
        omega
      · split
        · have h1 := ih ⟨skipLineComment rest.tail, st.line⟩
          have h2 := skipLineComment_le rest.tail
          have h3 : rest.tail.length ≤ rest.length := by
            simp [List.length_tail]
          simp at h1 ⊢
          omega
        · simp [hin]

theorem skipWs_noop (fuel : Nat) (st : LexSt) (c : Char) (rest : List Char)
    (hin : st.input = c :: rest) (hws : c.isWhitespace = false)
    (hsl : c ≠ '/') : skipWs (fuel + 1) st = st := by
  unfold skipWs
  rw [hin]
  simp [hws, hsl]

theorem readNumChars_append (l : List Char) :
    (readNumChars l).1 ++ (readNumChars l).2 = l := by
  induction l with
  | nil => rfl
  | cons c rest ih =>
    simp only [readNumChars]
    split
    · simpa using ih
    · simp

theorem readNumChars_snd_le (l : List Char) :
    (readNumChars l).2.length ≤ l.length := by
  have h := congrArg List.length (readNumChars_append l)
  simp at h
  omega

theorem readNumChars_cons_of_digit (c : Char) (rest : List Char)
    (h : c.isDigit = true) :
    (readNumChars (c :: rest)).2.length ≤ rest.length := by
  simp only [readNumChars]
  rw [if_pos (Or.inl h)]
  exact readNumChars_snd_le rest

theorem readNumChars_run_digits (l : List Char) :
    ∀ ch ∈ (readNumChars l).1, ch.isDigit = true ∨ ch = '.' := by
  induction l with
  | nil => simp [readNumChars]
  | cons c rest ih =>
    simp only [readNumChars]
    split
    · intro ch hch
      rcases List.mem_cons.mp hch with h | h
      · subst h; assumption
      · exact ih ch h
    · simp

theorem readNumChars_maximal (l : List Char) :
    ∀ c2 cs2, (readNumChars l).2 = c2 :: cs2 →
      ¬(c2.isDigit = true ∨ c2 = '.') := by
  induction l with
  | nil => simp [readNumChars]
  | cons c rest ih =>
    simp only [readNumChars]
    split
    · exact ih
    · intro c2 cs2 hc2
      injection hc2 with h1 _
      subst h1
      assumption

theorem readIdentChars_snd_le (l : List Char) :
    (readIdentChars l).2.length ≤ l.length := by
  induction l with
  | nil => simp [readIdentChars]
  | cons c rest ih =>
    simp only [readIdentChars]
    split
    · simp
      omega
    · simp

theorem readIdentChars_cons_of_alpha (c : Char) (rest : List Char)
    (h : c.isAlpha = true ∨ c = '_') :
    (readIdentChars (c :: rest)).2.length ≤ rest.length := by
  have halnum : c.isAlphanum = true ∨ c = '_' := by
    rcases h with h | h
    · exact Or.inl (by simp [Char.isAlphanum, h])
    · exact Or.inr h
  simp only [readIdentChars]
  rw [if_pos halnum]
  exact readIdentChars_snd_le rest

theorem readStringAux_rest_le :
    ∀ (n : Nat) (l : List Char) (line : Nat), l.length ≤ n →
      (readStringAux l line).2.1.length ≤ l.length := by
  intro n
  induction n with
  | zero =>
    intro l line hl
    have : l = [] := List.eq_nil_of_length_eq_zero (by omega)
    subst this
    simp [readStringAux]
  | succ n ih =>
    intro l line hl
    cases l with
    | nil => simp [readStringAux]
    | cons c rest =>
      unfold readStringAux
      by_cases h1 : c = '"'
      · rw [if_pos h1]
        simp
      · rw [if_neg h1]
        by_cases h2 : c = '\\'
        · rw [if_pos h2]
          cases rest with
          | nil => simp
          | cons e rest2 =>
            have hrec := ih rest2 (lineBump e line) (by simp at hl; omega)
            simp
            omega
        · rw [if_neg h2]
          have hrec := ih rest (lineBump c line) (by simp at hl; omega)
          simp
          omega

theorem splitOnDot_length (l : List Char) :
    (splitOnDot l).length = l.count '.' + 1 := by
  induction l with
  | nil => simp [splitOnDot]
  | cons c rest ih =>
    simp only [splitOnDot]
    split
    · subst (by assumption : c = '.')
      simp [List.count_cons, ih]
    · have hne : c ≠ '.' := by assumption
      cases hps : splitOnDot rest with
      | nil => rw [hps] at ih; simp at ih
      | cons p pr =>
        rw [hps] at ih
        simp only [List.length_cons] at ih ⊢
        rw [List.count_cons]
        simp [hne]
        omega

theorem parseF64Run_multidot (cs : List Char) (h : 2 ≤ cs.count '.') :
    parseF64Run cs = none := by
  have hlen := splitOnDot_length cs
  unfold parseF64Run
  cases hsp : splitOnDot cs with
  | nil => rfl
  | cons ip tl =>
    cases tl with
    | nil =>
      rw [hsp] at hlen
      simp at hlen
      exfalso
      omega
    | cons fp tl2 =>
      cases tl2 with
      | nil =>
        rw [hsp] at hlen
        simp at hlen
        exfalso
        omega
      | cons q tl3 => rfl

/-! ## Scanner lemmas: progress and termination -/

theorem nextToken_progress :
    ∀ fuel st t st1, nextToken fuel st = .tok t st1 →
      st1.input.length ≤ st.input.length ∧
      (t.token_type ≠ .eof → st1.input.length < st.input.length) := by
  intro fuel
  induction fuel with
  | zero => intro st t st1 h; exact absurd h (by simp [nextToken])
  | succ f ih =>
    intro st t st1 h
    simp only [nextToken] at h
    have hWle : (skipWs (st.input.length + 1) st).input.length ≤ st.input.length :=
      skipWs_le _ _
    cases hin : (skipWs (st.input.length + 1) st).input with
    | nil =>
      rw [hin] at h
      simp only at h
      cases h
      exact ⟨by omega, fun hne => absurd rfl hne⟩
    | cons c rest =>
      rw [hin] at h
      have hrl : rest.length + 1 ≤ st.input.length := by
        rw [hin] at hWle
        simpa using hWle
      simp only at h
      split at h
      all_goals try (split at h)
      all_goals try (cases h)
      all_goals try (exact ⟨by simp_all; omega, fun _ => by simp_all; omega⟩)
      · rename_i rest2
        obtain ⟨ha, _⟩ := ih _ _ _ h
        simp only at ha
        have hb := skipLineComment_le rest2
        simp at hrl
        exact ⟨by omega, fun _ => by omega⟩
      · have hs := readStringAux_rest_le rest.length rest
          (skipWs (st.input.length + 1) st).line le_rfl
        refine ⟨?_, fun _ => ?_⟩ <;> simp <;> omega
      · rename_i hdig
        have hn := readNumChars_cons_of_digit c rest hdig
        refine ⟨?_, fun _ => ?_⟩ <;> simp <;> omega
      · split at h
        · cases h
          rename_i halpha
          have hn := readIdentChars_cons_of_alpha c rest halpha
          refine ⟨?_, fun _ => ?_⟩ <;> simp <;> omega
        · cases h

theorem nextToken_no_fuelOut :
    ∀ fuel st, st.input.length < fuel → nextToken fuel st ≠ .fuelOut := by
  intro fuel
  induction fuel with
  | zero => intro st h; exact absurd h (by omega)
  | succ f ih =>
    intro st hlt h
    simp only [nextToken] at h
    cases hin : (skipWs (st.input.length + 1) st).input with
    | nil =>
      rw [hin] at h
      simp only at h
      cases h
    | cons c rest =>
      rw [hin] at h
      have hrl : rest.length + 1 ≤ st.input.length := by
        have hWle := skipWs_le (st.input.length + 1) st
        rw [hin] at hWle
        simpa using hWle
      simp only at h
      split at h
      all_goals try (split at h)
      all_goals try (split at h)
      all_goals try (cases h)
      · rename_i rest2
        simp at hrl
        have hb := skipLineComment_le rest2
        exact ih ⟨skipLineComment rest2, (skipWs (st.input.length + 1) st).line⟩
          (by simp; omega) h

theorem tokenizeLoop_no_fuelOut :
    ∀ fuel st, st.input.length < fuel → tokenizeLoop fuel st ≠ .fuelOut := by
  intro fuel
  induction fuel with
  | zero => intro st h; exact absurd h (by omega)
  | succ f ih =>
    intro st hlt h
    simp only [tokenizeLoop] at h
    cases hnt : nextToken (st.input.length + 1) st with
    | fuelOut => exact nextToken_no_fuelOut _ _ (by omega) hnt
    | fatal msg =>
      rw [hnt] at h
      simp only at h
      cases h
    | tok t st1 =>
      rw [hnt] at h
      simp only at h
      split at h
      · cases h
      · rename_i hne
        obtain ⟨_, hprog⟩ := nextToken_progress _ _ _ _ hnt
        have hlt1 : st1.input.length < f := by
          have := hprog hne
          omega
        cases hrec : tokenizeLoop f st1 with
        | tokens ts => rw [hrec] at h; cases h
        | fatal m => rw [hrec] at h; cases h
        | fuelOut => exact ih st1 hlt1 hrec

theorem tokenizeLoop_tokens_shape :
    ∀ fuel st ts, tokenizeLoop fuel st = .tokens ts →
      ∃ pre lastTok, ts = pre ++ [lastTok] ∧ lastTok.token_type = .eof ∧
        ∀ t ∈ pre, t.token_type ≠ .eof := by
  intro fuel
  induction fuel with
  | zero => intro st ts h; simp [tokenizeLoop] at h
  | succ f ih =>
    intro st ts h
    simp only [tokenizeLoop] at h
    cases hnt : nextToken (st.input.length + 1) st with
    | fuelOut => rw [hnt] at h; simp only at h; cases h
    | fatal m => rw [hnt] at h; simp only at h; cases h
    | tok t st1 =>
      rw [hnt] at h
      simp only at h
      split at h
      · rename_i heof
        cases h
        exact ⟨[], t, rfl, heof, by simp⟩
      · rename_i hne
        cases hrec : tokenizeLoop f st1 with
        | tokens ts2 =>
          rw [hrec] at h
          cases h
          obtain ⟨pre, lastTok, rfl, hl, hpre⟩ := ih st1 ts2 hrec
          refine ⟨t :: pre, lastTok, rfl, hl, ?_⟩
          intro x hx
          rcases List.mem_cons.mp hx with rfl | hx
          · exact hne
          · exact hpre x hx
        | fatal m => rw [hrec] at h; cases h
        | fuelOut => rw [hrec] at h; cases h

/-! ## Claim theorems: scanner -/

/-- C7: on every finite input `tokenize` terminates (fuel is never
exhausted) and a returned token sequence ends with an `EndOfInput` token
that is its only one; an unterminated string literal is consumed to end of
input without a scanner error. -/
theorem tokenize_terminates_single_eof (source : String) :
    tokenize source ≠ .fuelOut ∧
    (∀ ts, tokenize source = .tokens ts →
      ∃ pre lastTok, ts = pre ++ [lastTok] ∧ lastTok.token_type = .eof ∧
        ∀ t ∈ pre, t.token_type ≠ .eof) ∧
    tokenize "\"abc" = .tokens [⟨.string "abc", 1⟩, ⟨.eof, 1⟩] := by
  refine ⟨?_, ?_, by decide⟩
  · exact tokenizeLoop_no_fuelOut _ _ (by simp)
  · intro ts h
    exact tokenizeLoop_tokens_shape _ _ _ h

theorem tokenize_terminates_single_eof_witness :
    tokenize "let x" = .tokens
      [⟨.letKw, 1⟩, ⟨.identifier "x", 1⟩, ⟨.eof, 1⟩] ∧
    ∃ pre lastTok,
      [⟨.letKw, 1⟩, ⟨.identifier "x", 1⟩, (⟨.eof, 1⟩ : Token)]
        = pre ++ [lastTok] ∧ lastTok.token_type = .eof ∧
      ∀ t ∈ pre, t.token_type ≠ .eof :=
  ⟨by decide, (tokenize_terminates_single_eof "let x").2.1 _ (by decide)⟩

/-- C9: at a digit the scanner consumes the maximal run of ASCII digits
and dots, parses it as a float, and on malformed runs (such as several
dots) still produces a `Number` token with value `0.0` instead of
aborting. -/
theorem scanner_number_fallback (st : LexSt) (c : Char) (rest : List Char)
    (fuel : Nat) (hin : st.input = c :: rest) (hd : c.isDigit = true) :
    nextToken (fuel + 1) st =
      .tok ⟨.number ((parseF64Run (readNumChars st.input).1).getD 0), st.line⟩
           ⟨(readNumChars st.input).2, st.line⟩ ∧
    (readNumChars st.input).1 ++ (readNumChars st.input).2 = st.input ∧
    (∀ ch ∈ (readNumChars st.input).1, ch.isDigit = true ∨ ch = '.') ∧
    (∀ c2 cs2, (readNumChars st.input).2 = c2 :: cs2 →
      ¬(c2.isDigit = true ∨ c2 = '.')) ∧
    (∀ cs : List Char, 2 ≤ cs.count '.' → parseF64Run cs = none) := by
  have hws : c.isWhitespace = false := by
    by_contra hw
    simp only [Bool.not_eq_false] at hw
    simp only [Char.isWhitespace, Bool.or_eq_true, decide_eq_true_eq] at hw
    rcases hw with ((h | h) | h) | h <;> (subst h; exact absurd hd (by decide))
  have hsl : c ≠ '/' := fun hc => by subst hc; exact absurd hd (by decide)
  have hnoop := skipWs_noop st.input.length st c rest hin hws hsl
  refine ⟨?_, readNumChars_append _,
    readNumChars_run_digits _, readNumChars_maximal _, parseF64Run_multidot⟩
  simp only [nextToken]
  rw [hnoop, hin]
  split
  · rename_i hcontra
    cases hcontra
  · rename_i cc rr heq
    injection heq with h1 h2
    subst h1
    subst h2
    split
    all_goals try (exact absurd hd (by decide))
    · rw [if_pos hd]

unseal Rat.add Rat.mul Rat.sub Rat.inv in
theorem scanner_number_fallback_witness :
    nextToken 6 ⟨"1.2.3".data, 1⟩ =
      .tok ⟨.number ((parseF64Run (readNumChars "1.2.3".data).1).getD 0), 1⟩
           ⟨(readNumChars "1.2.3".data).2, 1⟩ ∧
    tokenize "1.2.3" = .tokens [⟨.number 0, 1⟩, ⟨.eof, 1⟩] :=
  ⟨(scanner_number_fallback ⟨"1.2.3".data, 1⟩ '1' ".2.3".data 5 (by decide)
      (by decide)).1,
   by decide⟩

/-! ## Parser (`parser.rs`)

The parser state is the token vector and the cursor `current`. `peek`
past the end yields a default `Eof` token (line 0), exactly as the Rust
`unwrap_or` does, so no access is out of bounds. `match_token` and
`consume` compare token-kind discriminants. The mutually recursive
productions are organised as a bundle `ParserFns` built by one `Nat.rec`
layer per call depth (explicit fuel); `PRes.fatal` embeds the
`unreachable!()` arms of the operator-decoding matches, and `PRes.fuelOut`
marks fuel exhaustion, kept distinct from parse errors. -/

structure PState where
  tokens : List Token
  current : Nat
deriving DecidableEq, Repr

def eofToken : Token := ⟨.eof, 0⟩

/-- `Parser::peek`. -/
def peek (ps : PState) : Token :=
  (ps.tokens[ps.current]?).getD eofToken

/-- `Parser::advance` (the returned reference to the new current token is
never used by callers). -/
def advance (ps : PState) : PState :=
  if ps.current < ps.tokens.length then
    { ps with current := ps.current + 1 }
  else ps

/-- `std::mem::discriminant` on `TokenType`. -/
def kindIdx : TokenType → Nat
  | .number _ => 0
  | .string _ => 1
  | .identifier _ => 2
  | .plus => 3
  | .minus => 4
  | .multiply => 5
  | .divide => 6
  | .assign => 7
  | .equal => 8
  | .notEqual => 9
  | .less => 10
  | .greater => 11
  | .lessEqual => 12
  | .greaterEqual => 13
  | .letKw => 14
  | .ifKw => 15
  | .elseKw => 16
  | .whileKw => 17
  | .printKw => 18
  | .leftParen => 19
  | .rightParen => 20
  | .leftBrace => 21
  | .rightBrace => 22
  | .semicolon => 23
  | .eof => 24

def sameKind (a b : TokenType) : Bool := kindIdx a = kindIdx b

/-- Result of a parser production: success with the new state, a parse
error (Rust `Err(String)`), the `unreachable!()` marker, or fuel
exhaustion. -/
inductive PRes (α : Type) where
  | ok : α → PState → PRes α
  | err : String → PRes α
  | fatal
  | fuelOut
deriving DecidableEq, Repr

/-- The `?` operator on parser results. -/
def PRes.bind {α β : Type} : PRes α → (α → PState → PRes β) → PRes β
  | .ok a ps, f => f a ps
  | .err e, _ => .err e
  | .fatal, _ => .fatal
  | .fuelOut, _ => .fuelOut

/-- `Parser::match_token`. -/
def matchToken (ps : PState) (tt : TokenType) : Bool × PState :=
  if sameKind (peek ps).token_type tt then (true, advance ps) else (false, ps)

/-- `Parser::consume`. -/
def consume (expected : TokenType) (message : String) (ps : PState) :
    PRes Unit :=
  if sameKind (peek ps).token_type expected then .ok () (advance ps)
  else .err (message ++ " at line " ++ natToString (peek ps).line)

/-- The mutually recursive productions of `Parser`, one field per Rust
method plus one per in-method `while` loop. -/
structure ParserFns where
  statement : PState → PRes Stmt
  letStatement : PState → PRes Stmt
  ifStatement : PState → PRes Stmt
  whileStatement : PState → PRes Stmt
  printStatement : PState → PRes Stmt
  blockStatement : PState → PRes Stmt
  blockLoop : List Stmt → PState → PRes (List Stmt)
  parseStmts : PState → PRes (List Stmt)
  parseLoop : List Stmt → PState → PRes (List Stmt)
  expression : PState → PRes Expr
  equality : PState → PRes Expr
  equalityLoop : Expr → PState → PRes Expr
  comparison : PState → PRes Expr
  comparisonLoop : Expr → PState → PRes Expr
  term : PState → PRes Expr
  termLoop : Expr → PState → PRes Expr
  factor : PState → PRes Expr
  factorLoop : Expr → PState → PRes Expr
  unary : PState → PRes Expr
  primary : PState → PRes Expr

def isEofKind : TokenType → Bool
  | .eof => true
  | _ => false

def isRBraceOrEof : TokenType → Bool
  | .rightBrace => true
  | .eof => true
  | _ => false

def isEqNeq : TokenType → Bool
  | .equal => true
  | .notEqual => true
  | _ => false

def isCmpOp : TokenType → Bool
  | .greater => true
  | .greaterEqual => true
  | .less => true
  | .lessEqual => true
  | _ => false

def isTermOp : TokenType → Bool
  | .minus => true
  | .plus => true
  | _ => false

def isFactorOp : TokenType → Bool
  | .divide => true
  | .multiply => true
  | _ => false

def isMinusKind : TokenType → Bool
  | .minus => true
  | _ => false

/-- `Parser::statement`. -/
def statementStep (ih : ParserFns) (ps : PState) : PRes Stmt :=
  match (peek ps).token_type with
  | .letKw => ih.letStatement ps
  | .ifKw => ih.ifStatement ps
  | .whileKw => ih.whileStatement ps
  | .printKw => ih.printStatement ps
  | .leftBrace => ih.blockStatement ps
  | .identifier name =>
    if sameKind (peek (advance ps)).token_type .assign then
      (ih.expression (advance (advance ps))).bind fun value ps3 =>
      (consume .semicolon "Expected \x27;\x27 after assignment" ps3).bind
        fun _ ps4 =>
      .ok (.assignment name value) ps4
    else
      (ih.expression ps).bind fun expr ps1 =>
      (consume .semicolon "Expected \x27;\x27 after expression" ps1).bind
        fun _ ps2 =>
      .ok (.expression expr) ps2
  | _ =>
    (ih.expression ps).bind fun expr ps1 =>
    (consume .semicolon "Expected \x27;\x27 after expression" ps1).bind
      fun _ ps2 =>
    .ok (.expression expr) ps2

/-- `Parser::let_statement`. -/
def letStatementStep (ih : ParserFns) (ps : PState) : PRes Stmt :=
  (consume .letKw "Expected \x27let\x27" ps).bind fun _ ps1 =>
  match (peek ps1).token_type with
  | .identifier name =>
    let ps2 := advance ps1
    (consume .assign "Expected \x27=\x27 after variable name" ps2).bind
      fun _ ps3 =>
    (ih.expression ps3).bind fun value ps4 =>
    (consume .semicolon "Expected \x27;\x27 after let statement" ps4).bind
      fun _ ps5 =>
    .ok (.letStmt name value) ps5
  | _ =>
    .err ("Expected identifier after \x27let\x27 at line "
      ++ natToString (peek ps1).line)

/-- `Parser::if_statement`. -/
def ifStatementStep (ih : ParserFns) (ps : PState) : PRes Stmt :=
  (consume .ifKw "Expected \x27if\x27" ps).bind fun _ ps1 =>
  (consume .leftParen "Expected \x27(\x27 after \x27if\x27" ps1).bind
    fun _ ps2 =>
  (ih.expression ps2).bind fun condition ps3 =>
  (consume .rightParen "Expected \x27)\x27 after if condition" ps3).bind
    fun _ ps4 =>
  (ih.statement ps4).bind fun thenStmt ps5 =>
  if (matchToken ps5 .elseKw).1 then
    (ih.statement (matchToken ps5 .elseKw).2).bind fun elseStmt ps6 =>
    .ok (.ifStmt condition thenStmt (some elseStmt)) ps6
  else .ok (.ifStmt condition thenStmt none) (matchToken ps5 .elseKw).2

/-- `Parser::while_statement`. -/
def whileStatementStep (ih : ParserFns) (ps : PState) : PRes Stmt :=
  (consume .whileKw "Expected \x27while\x27" ps).bind fun _ ps1 =>
  (consume .leftParen "Expected \x27(\x27 after \x27while\x27" ps1).bind
    fun _ ps2 =>
  (ih.expression ps2).bind fun condition ps3 =>
  (consume .rightParen "Expected \x27)\x27 after while condition" ps3).bind
    fun _ ps4 =>
  (ih.statement ps4).bind fun body ps5 =>
  .ok (.whileStmt condition body) ps5

/-- `Parser::print_statement`. -/
def printStatementStep (ih : ParserFns) (ps : PState) : PRes Stmt :=
  (consume .printKw "Expected \x27print\x27" ps).bind fun _ ps1 =>
  (consume .leftParen "Expected \x27(\x27 after \x27print\x27" ps1).bind
    fun _ ps2 =>
  (ih.expression ps2).bind fun expr ps3 =>
  (consume .rightParen "Expected \x27)\x27 after print expression" ps3).bind
    fun _ ps4 =>
  (consume .semicolon "Expected \x27;\x27 after print statement" ps4).bind
    fun _ ps5 =>
  .ok (.print expr) ps5

/-- `Parser::block_statement`. -/
def blockStatementStep (ih : ParserFns) (ps : PState) : PRes Stmt :=
  (consume .leftBrace "Expected \x27\x7b\x27" ps).bind fun _ ps1 =>
  (ih.blockLoop [] ps1).bind fun stmts ps2 =>
  (consume .rightBrace "Expected \x27\x7d\x27 after block" ps2).bind
    fun _ ps3 =>
  .ok (.block stmts) ps3

/-- The statement-collecting loop of `Parser::block_statement`. -/
def blockLoopStep (ih : ParserFns) (acc : List Stmt) (ps : PState) :
    PRes (List Stmt) :=
  if isRBraceOrEof (peek ps).token_type then .ok acc ps
  else
    (ih.statement ps).bind fun s ps1 =>
    ih.blockLoop (acc ++ [s]) ps1

/-- `Parser::parse`. -/
def parseStmtsStep (ih : ParserFns) (ps : PState) : PRes (List Stmt) :=
  ih.parseLoop [] ps

/-- The statement-collecting loop of `Parser::parse`. -/
def parseLoopStep (ih : ParserFns) (acc : List Stmt) (ps : PState) :
    PRes (List Stmt) :=
  if isEofKind (peek ps).token_type then .ok acc ps
  else
    (ih.statement ps).bind fun s ps1 =>
    ih.parseLoop (acc ++ [s]) ps1

/-- `Parser::expression`. -/
def expressionStep (ih : ParserFns) (ps : PState) : PRes Expr :=
  ih.equality ps

/-- `Parser::equality` (first operand). -/
def equalityStep (ih : ParserFns) (ps : PState) : PRes Expr :=
  (ih.comparison ps).bind fun e ps1 => ih.equalityLoop e ps1

/-- The left-folding loop of `Parser::equality`; the `none` arm embeds
the `unreachable!()` of the operator decode. -/
def equalityLoopStep (ih : ParserFns) (e : Expr) (ps : PState) : PRes Expr :=
  if isEqNeq (peek ps).token_type then
    match (match (peek ps).token_type with
           | .equal => some BinaryOp.equal
           | .notEqual => some BinaryOp.notEqual
           | _ => none) with
    | some operator =>
      let ps1 := advance ps
      (ih.comparison ps1).bind fun right ps2 =>
      ih.equalityLoop (.binary e operator right) ps2
    | none => .fatal
  else .ok e ps

/-- `Parser::comparison` (first operand). -/
def comparisonStep (ih : ParserFns) (ps : PState) : PRes Expr :=
  (ih.term ps).bind fun e ps1 => ih.comparisonLoop e ps1

/-- The left-folding loop of `Parser::comparison`. -/
def comparisonLoopStep (ih : ParserFns) (e : Expr) (ps : PState) : PRes Expr :=
  if isCmpOp (peek ps).token_type then
    match (match (peek ps).token_type with
           | .greater => some BinaryOp.greater
           | .greaterEqual => some BinaryOp.greaterEqual
           | .less => some BinaryOp.less
           | .lessEqual => some BinaryOp.lessEqual
           | _ => none) with
    | some operator =>
      let ps1 := advance ps
      (ih.term ps1).bind fun right ps2 =>
      ih.comparisonLoop (.binary e operator right) ps2
    | none => .fatal
  else .ok e ps

/-- `Parser::term` (first operand). -/
def termStep (ih : ParserFns) (ps : PState) : PRes Expr :=
  (ih.factor ps).bind fun e ps1 => ih.termLoop e ps1

/-- The left-folding loop of `Parser::term`. -/
def termLoopStep (ih : ParserFns) (e : Expr) (ps : PState) : PRes Expr :=
  if isTermOp (peek ps).token_type then
    match (match (peek ps).token_type with
           | .minus => some BinaryOp.subtract
           | .plus => some BinaryOp.add
           | _ => none) with
    | some operator =>
      let ps1 := advance ps
      (ih.factor ps1).bind fun right ps2 =>
      ih.termLoop (.binary e operator right) ps2
    | none => .fatal
  else .ok e ps

/-- `Parser::factor` (first operand). -/
def factorStep (ih : ParserFns) (ps : PState) : PRes Expr :=
  (ih.unary ps).bind fun e ps1 => ih.factorLoop e ps1

/-- The left-folding loop of `Parser::factor`. -/
def factorLoopStep (ih : ParserFns) (e : Expr) (ps : PState) : PRes Expr :=
  if isFactorOp (peek ps).token_type then
    match (match (peek ps).token_type with
           | .divide => some BinaryOp.divide
           | .multiply => some BinaryOp.multiply
           | _ => none) with
    | some operator =>
      let ps1 := advance ps
      (ih.unary ps1).bind fun right ps2 =>
      ih.factorLoop (.binary e operator right) ps2
    | none => .fatal
  else .ok e ps

/-- `Parser::unary`. -/
def unaryStep (ih : ParserFns) (ps : PState) : PRes Expr :=
  if isMinusKind (peek ps).token_type then
    let ps1 := advance ps
    (ih.unary ps1).bind fun operand ps2 =>
    .ok (.unary .minus operand) ps2
  else ih.primary ps

/-- `Parser::primary`. -/
def primaryStep (ih : ParserFns) (ps : PState) : PRes Expr :=
  match (peek ps).token_type with
  | .number n => .ok (.number n) (advance ps)
  | .string s => .ok (.string s) (advance ps)
  | .identifier name => .ok (.identifier name) (advance ps)
  | .leftParen =>
    let ps1 := advance ps
    (ih.expression ps1).bind fun e ps2 =>
    (consume .rightParen "Expected \x27)\x27 after expression" ps2).bind
      fun _ ps3 =>
    .ok e ps3
  | _ => .err ("Unexpected token at line " ++ natToString (peek ps).line)

/-- The zero-fuel bundle: every production reports fuel exhaustion. -/
def parserBase : ParserFns where
  statement := fun _ => .fuelOut
  letStatement := fun _ => .fuelOut
  ifStatement := fun _ => .fuelOut
  whileStatement := fun _ => .fuelOut
  printStatement := fun _ => .fuelOut
  blockStatement := fun _ => .fuelOut
  blockLoop := fun _ _ => .fuelOut
  parseStmts := fun _ => .fuelOut
  parseLoop := fun _ _ => .fuelOut
  expression := fun _ => .fuelOut
  equality := fun _ => .fuelOut
  equalityLoop := fun _ _ => .fuelOut
  comparison := fun _ => .fuelOut
  comparisonLoop := fun _ _ => .fuelOut
  term := fun _ => .fuelOut
  termLoop := fun _ _ => .fuelOut
  factor := fun _ => .fuelOut
  factorLoop := fun _ _ => .fuelOut
  unary := fun _ => .fuelOut
  primary := fun _ => .fuelOut

/-- One layer of the mutual recursion: every call goes to the bundle one
fuel level below. -/
def parserStep (ih : ParserFns) : ParserFns where
  statement := statementStep ih
  letStatement := letStatementStep ih
  ifStatement := ifStatementStep ih
  whileStatement := whileStatementStep ih
  printStatement := printStatementStep ih
  blockStatement := blockStatementStep ih
  blockLoop := blockLoopStep ih
  parseStmts := parseStmtsStep ih
  parseLoop := parseLoopStep ih
  expression := expressionStep ih
  equality := equalityStep ih
  equalityLoop := equalityLoopStep ih
  comparison := comparisonStep ih
  comparisonLoop := comparisonLoopStep ih
  term := termStep ih
  termLoop := termLoopStep ih
  factor := factorStep ih
  factorLoop := factorLoopStep ih
  unary := unaryStep ih
  primary := primaryStep ih

def parserFns (fuel : Nat) : ParserFns :=
  Nat.rec parserBase (fun _ ih => parserStep ih) fuel

theorem parserFns_succ (fuel : Nat) :
    parserFns (fuel + 1) = parserStep (parserFns fuel) := rfl

/-- `Parser::new(tokens)` followed by `Parser::parse`. -/
def parseTokens (fuel : Nat) (tokens : List Token) : PRes (List Stmt) :=
  (parserFns fuel).parseStmts ⟨tokens, 0⟩

/-! ## Claim theorems: precedence and associativity -/

unseal Rat.add Rat.mul Rat.sub Rat.inv in
/-- C5: the precedence ladder binds `*`/`/` tighter than `+`/`-` and all
binary operators fold left: `let result = 3 + 4 * 2;` parses as
`3 + (4 * 2)` and leaves `result = 11`, and `10 - 3 - 2` parses as
`(10 - 3) - 2` and evaluates to `5`, not `9`. -/
theorem precedence_left_assoc :
    tokenize "let result = 3 + 4 * 2;" = .tokens
      [⟨.letKw, 1⟩, ⟨.identifier "result", 1⟩, ⟨.assign, 1⟩, ⟨.number 3, 1⟩,
       ⟨.plus, 1⟩, ⟨.number 4, 1⟩, ⟨.multiply, 1⟩, ⟨.number 2, 1⟩,
       ⟨.semicolon, 1⟩, ⟨.eof, 1⟩] ∧
    parseTokens 50
      [⟨.letKw, 1⟩, ⟨.identifier "result", 1⟩, ⟨.assign, 1⟩, ⟨.number 3, 1⟩,
       ⟨.plus, 1⟩, ⟨.number 4, 1⟩, ⟨.multiply, 1⟩, ⟨.number 2, 1⟩,
       ⟨.semicolon, 1⟩, ⟨.eof, 1⟩] =
      .ok [.letStmt "result" (.binary (.number 3) .add
            (.binary (.number 4) .multiply (.number 2)))]
        ⟨[⟨.letKw, 1⟩, ⟨.identifier "result", 1⟩, ⟨.assign, 1⟩, ⟨.number 3, 1⟩,
          ⟨.plus, 1⟩, ⟨.number 4, 1⟩, ⟨.multiply, 1⟩, ⟨.number 2, 1⟩,
          ⟨.semicolon, 1⟩, ⟨.eof, 1⟩], 9⟩ ∧
    interpret 10
      [.letStmt "result" (.binary (.number 3) .add
        (.binary (.number 4) .multiply (.number 2)))]
      initialInterpSt
      = (.ok, { globals := [("result", .number 11)], output := [] }) ∧
    tokenize "10 - 3 - 2" = .tokens
      [⟨.number 10, 1⟩, ⟨.minus, 1⟩, ⟨.number 3, 1⟩, ⟨.minus, 1⟩,
       ⟨.number 2, 1⟩, ⟨.eof, 1⟩] ∧
    (parserFns 50).expression
      ⟨[⟨.number 10, 1⟩, ⟨.minus, 1⟩, ⟨.number 3, 1⟩, ⟨.minus, 1⟩,
        ⟨.number 2, 1⟩, ⟨.eof, 1⟩], 0⟩ =
      .ok (.binary (.binary (.number 10) .subtract (.number 3))
            .subtract (.number 2))
        ⟨[⟨.number 10, 1⟩, ⟨.minus, 1⟩, ⟨.number 3, 1⟩, ⟨.minus, 1⟩,
          ⟨.number 2, 1⟩, ⟨.eof, 1⟩], 5⟩ ∧
    evaluateExpr []
      (.binary (.binary (.number 10) .subtract (.number 3))
        .subtract (.number 2))
      = .ok (.number 5) := by
  refine ⟨by decide, by rfl, by decide, by decide, by rfl, by rfl⟩

/-! ## Parser totality infrastructure

`rem` is the number of tokens at or after the cursor. All parser
productions keep the token vector unchanged and move the cursor forward;
with fuel at least `20 * rem + c` (a small per-production constant `c`)
no production runs out of fuel, and none ever reaches the embedded
`unreachable!()` marker. -/

def rem (ps : PState) : Nat := ps.tokens.length - ps.current

theorem advance_tokens (ps : PState) : (advance ps).tokens = ps.tokens := by
  unfold advance
  split <;> rfl

theorem advance_le (ps : PState) : ps.current ≤ (advance ps).current := by
  unfold advance
  split <;> simp

theorem peek_past (ps : PState) (h : ps.tokens.length ≤ ps.current) :
    peek ps = eofToken := by
  unfold peek
  rw [List.getElem?_eq_none (by omega)]
  rfl

theorem peek_lt (ps : PState) (h : kindIdx (peek ps).token_type ≠ 24) :
    ps.current < ps.tokens.length := by
  by_contra hge
  rw [peek_past ps (by omega)] at h
  exact h rfl

theorem advance_strict (ps : PState)
    (h : kindIdx (peek ps).token_type ≠ 24) :
    (advance ps).current = ps.current + 1 := by
  unfold advance
  rw [if_pos (peek_lt ps h)]

theorem consume_cases (expected : TokenType) (msg : String) (ps : PState)
    {a : Unit} {ps1 : PState}
    (h : consume expected msg ps = .ok a ps1) :
    ps1 = advance ps ∧ sameKind (peek ps).token_type expected = true := by
  unfold consume at h
  split at h
  · cases h
    exact ⟨rfl, by assumption⟩
  · cases h

theorem consume_strict (expected : TokenType) (msg : String) (ps : PState)
    {a : Unit} {ps1 : PState}
    (h : consume expected msg ps = .ok a ps1) (hk : kindIdx expected ≠ 24) :
    ps.current < ps1.current ∧ ps1.tokens = ps.tokens := by
  obtain ⟨rfl, hsk⟩ := consume_cases expected msg ps h
  simp only [sameKind, decide_eq_true_eq] at hsk
  rw [advance_strict ps (by omega), advance_tokens]
  exact ⟨by omega, rfl⟩

/-- Result-level invariant: when the production succeeds the cursor moved
monotonically over the same tokens, and it is neither the
`unreachable!()` marker nor out of fuel. -/
def RGood {α : Type} (ps : PState) (r : PRes α) : Prop :=
  (∀ a ps1, r = .ok a ps1 → ps.current ≤ ps1.current ∧ ps1.tokens = ps.tokens)
  ∧ r ≠ .fatal ∧ r ≠ .fuelOut

theorem RGood.okState {α : Type} (a : α) (ps ps1 : PState)
    (hc : ps.current ≤ ps1.current) (ht : ps1.tokens = ps.tokens) :
    RGood ps (.ok a ps1) := by
  refine ⟨?_, nofun, nofun⟩
  intro b ps2 h
  cases h
  exact ⟨hc, ht⟩

theorem RGood.okSelf {α : Type} (a : α) (ps : PState) : RGood ps (.ok a ps) :=
  RGood.okState a ps ps le_rfl rfl

theorem RGood.errRes {α : Type} (e : String) (ps : PState) :
    RGood ps (.err e : PRes α) := by
  refine ⟨?_, nofun, nofun⟩
  intro b ps2 h
  cases h

theorem RGood.consumeRes (expected : TokenType) (msg : String) (ps : PState) :
    RGood ps (consume expected msg ps) := by
  unfold consume
  split
  · exact RGood.okState () ps (advance ps) (advance_le ps) (advance_tokens ps)
  · exact RGood.errRes _ ps

theorem PRes.bind_eq_ok {α β : Type} {r : PRes α} {f : α → PState → PRes β}
    {b : β} {ps1 : PState} (h : r.bind f = .ok b ps1) :
    ∃ a psm, r = .ok a psm ∧ f a psm = .ok b ps1 := by
  cases r with
  | ok a psm => exact ⟨a, psm, rfl, h⟩
  | err e => cases h
  | fatal => cases h
  | fuelOut => cases h

theorem RGood.bindRes {α β : Type} {ps : PState} {r : PRes α}
    {f : α → PState → PRes β} (hr : RGood ps r)
    (hf : ∀ a psm, r = .ok a psm → RGood psm (f a psm)) :
    RGood ps (r.bind f) := by
  obtain ⟨hok, hfat, hfuel⟩ := hr
  cases r with
  | ok a psm =>
    obtain ⟨h2ok, h2fat, h2fuel⟩ := hf a psm rfl
    refine ⟨?_, h2fat, h2fuel⟩
    intro b ps1 hb
    obtain ⟨hm2, ht2⟩ := h2ok b ps1 hb
    obtain ⟨hm1, ht1⟩ := hok a psm rfl
    exact ⟨le_trans hm1 hm2, by rw [ht2, ht1]⟩
  | err e => exact RGood.errRes e ps
  | fatal => exact absurd rfl hfat
  | fuelOut => exact absurd rfl hfuel

/-- Goodness of a production under the linear fuel bound. -/
def GoodFn {α : Type} (n c : Nat) (f : PState → PRes α) : Prop :=
  ∀ ps, 20 * rem ps + c ≤ n → RGood ps (f ps)

/-- Goodness plus strict progress on success (statement forms). -/
def GoodStrictFn {α : Type} (n c : Nat) (f : PState → PRes α) : Prop :=
  ∀ ps, 20 * rem ps + c ≤ n → RGood ps (f ps) ∧
    ∀ a ps1, f ps = .ok a ps1 → ps.current < ps1.current

/-- The bundle of goodness facts for all productions at one fuel level. -/
def FnsGood (n : Nat) (fns : ParserFns) : Prop :=
  GoodStrictFn n 8 fns.statement ∧
  GoodStrictFn n 7 fns.letStatement ∧
  GoodStrictFn n 7 fns.ifStatement ∧
  GoodStrictFn n 7 fns.whileStatement ∧
  GoodStrictFn n 7 fns.printStatement ∧
  GoodStrictFn n 7 fns.blockStatement ∧
  (∀ acc, GoodFn n 9 (fns.blockLoop acc)) ∧
  GoodFn n 10 fns.parseStmts ∧
  (∀ acc, GoodFn n 9 (fns.parseLoop acc)) ∧
  GoodFn n 7 fns.expression ∧
  GoodFn n 6 fns.equality ∧
  (∀ e, GoodFn n 5 (fns.equalityLoop e)) ∧
  GoodFn n 5 fns.comparison ∧
  (∀ e, GoodFn n 4 (fns.comparisonLoop e)) ∧
  GoodFn n 4 fns.term ∧
  (∀ e, GoodFn n 3 (fns.termLoop e)) ∧
  GoodFn n 3 fns.factor ∧
  (∀ e, GoodFn n 2 (fns.factorLoop e)) ∧
  GoodFn n 2 fns.unary ∧
  GoodFn n 1 fns.primary

theorem RGood.weaken {α : Type} {ps ps1 : PState} {r : PRes α}
    (h : RGood ps1 r) (hc : ps.current ≤ ps1.current)
    (ht : ps1.tokens = ps.tokens) : RGood ps r := by
  obtain ⟨hok, hfat, hfuel⟩ := h
  refine ⟨?_, hfat, hfuel⟩
  intro a ps2 ha
  obtain ⟨h1, h2⟩ := hok a ps2 ha
  exact ⟨le_trans hc h1, by rw [h2, ht]⟩

theorem rem_advance (ps : PState) (h : kindIdx (peek ps).token_type ≠ 24) :
    rem (advance ps) + 1 = rem ps := by
  have h1 := peek_lt ps h
  have h2 := advance_strict ps h
  have h3 := advance_tokens ps
  unfold rem
  rw [h2, h3]
  omega

theorem rem_mono {ps ps1 : PState} (hc : ps.current ≤ ps1.current)
    (ht : ps1.tokens = ps.tokens) : rem ps1 ≤ rem ps := by
  unfold rem
  rw [ht]
  omega

/-- Strict variant of `RGood`: on success the cursor strictly advanced. -/
def RGoodS {α : Type} (ps : PState) (r : PRes α) : Prop :=
  (∀ a ps1, r = .ok a ps1 → ps.current < ps1.current ∧ ps1.tokens = ps.tokens)
  ∧ r ≠ .fatal ∧ r ≠ .fuelOut

theorem RGoodS.split {α : Type} {ps : PState} {r : PRes α} (h : RGoodS ps r) :
    RGood ps r ∧ ∀ a ps1, r = .ok a ps1 → ps.current < ps1.current := by
  obtain ⟨hok, hfat, hfuel⟩ := h
  refine ⟨⟨?_, hfat, hfuel⟩, ?_⟩
  · intro a ps1 ha
    obtain ⟨h1, h2⟩ := hok a ps1 ha
    exact ⟨le_of_lt h1, h2⟩
  · intro a ps1 ha
    exact (hok a ps1 ha).1

theorem RGoodS.ofParts {α : Type} {ps : PState} {r : PRes α}
    (hg : RGood ps r) (hs : ∀ a ps1, r = .ok a ps1 → ps.current < ps1.current) :
    RGoodS ps r := by
  obtain ⟨hok, hfat, hfuel⟩ := hg
  refine ⟨?_, hfat, hfuel⟩
  intro a ps1 ha
  exact ⟨hs a ps1 ha, (hok a ps1 ha).2⟩

theorem RGoodS.errResStrict {α : Type} (e : String) (ps : PState) :
    RGoodS ps (.err e : PRes α) := by
  refine ⟨?_, nofun, nofun⟩
  intro a ps1 h
  cases h

theorem RGoodS.consumeResStrict (expected : TokenType) (msg : String) (ps : PState)
    (hk : kindIdx expected ≠ 24) : RGoodS ps (consume expected msg ps) := by
  unfold consume
  split
  · rename_i hsk
    refine ⟨?_, nofun, nofun⟩
    intro a ps1 h
    cases h
    simp only [sameKind, decide_eq_true_eq] at hsk
    rw [advance_strict ps (by omega), advance_tokens]
    exact ⟨by omega, rfl⟩
  · exact RGoodS.errResStrict _ ps

theorem RGoodS.bindResStrict {α β : Type} {ps : PState} {r : PRes α}
    {f : α → PState → PRes β} (hr : RGoodS ps r)
    (hf : ∀ a psm, r = .ok a psm → RGood psm (f a psm)) :
    RGoodS ps (r.bind f) := by
  obtain ⟨hok, hfat, hfuel⟩ := hr
  cases r with
  | ok a psm =>
    obtain ⟨h2ok, h2fat, h2fuel⟩ := hf a psm rfl
    refine ⟨?_, h2fat, h2fuel⟩
    intro b ps1 hb
    obtain ⟨hm2, ht2⟩ := h2ok b ps1 hb
    obtain ⟨hm1, ht1⟩ := hok a psm rfl
    exact ⟨lt_of_lt_of_le hm1 hm2, by rw [ht2, ht1]⟩
  | err e => exact RGoodS.errResStrict e ps
  | fatal => exact absurd rfl hfat
  | fuelOut => exact absurd rfl hfuel

theorem RGood.bindResS {α β : Type} {ps : PState} {r : PRes α}
    {f : α → PState → PRes β} (hr : RGood ps r)
    (hf : ∀ a psm, r = .ok a psm → RGoodS psm (f a psm)) :
    RGoodS ps (r.bind f) := by
  obtain ⟨hok, hfat, hfuel⟩ := hr
  cases r with
  | ok a psm =>
    obtain ⟨h2ok, h2fat, h2fuel⟩ := hf a psm rfl
    refine ⟨?_, h2fat, h2fuel⟩
    intro b ps1 hb
    obtain ⟨hm2, ht2⟩ := h2ok b ps1 hb
    obtain ⟨hm1, ht1⟩ := hok a psm rfl
    exact ⟨lt_of_le_of_lt hm1 hm2, by rw [ht2, ht1]⟩
  | err e => exact RGoodS.errResStrict e ps
  | fatal => exact absurd rfl hfat
  | fuelOut => exact absurd rfl hfuel

theorem RGoodS.ofGoodStart {α : Type} {ps ps2 : PState} {r : PRes α}
    (h : RGood ps2 r) (hc : ps.current < ps2.current)
    (ht : ps2.tokens = ps.tokens) : RGoodS ps r := by
  obtain ⟨hok, hfat, hfuel⟩ := h
  refine ⟨?_, hfat, hfuel⟩
  intro a ps1 ha
  obtain ⟨h1, h2⟩ := hok a ps1 ha
  exact ⟨lt_of_lt_of_le hc h1, by rw [h2, ht]⟩

theorem matchToken_snd (ps : PState) (tt : TokenType) :
    ps.current ≤ (matchToken ps tt).2.current ∧
    (matchToken ps tt).2.tokens = ps.tokens := by
  unfold matchToken
  split
  · exact ⟨advance_le ps, advance_tokens ps⟩
  · exact ⟨le_rfl, rfl⟩

/-! Operator-classifier facts used to rule out the `unreachable!()` arms
and to show operator consumption advances the cursor. -/

theorem isEqNeq_ne (tt : TokenType) (h : isEqNeq tt = true) :
    kindIdx tt ≠ 24 := by
  cases tt <;> first | decide | simp [isEqNeq] at h

theorem isEqNeq_decode (tt : TokenType) (h : isEqNeq tt = true) :
    (match tt with
     | TokenType.equal => some BinaryOp.equal
     | TokenType.notEqual => some BinaryOp.notEqual
     | _ => none) ≠ none := by
  cases tt <;> first | decide | simp [isEqNeq] at h

theorem isCmpOp_ne (tt : TokenType) (h : isCmpOp tt = true) :
    kindIdx tt ≠ 24 := by
  cases tt <;> first | decide | simp [isCmpOp] at h

theorem isCmpOp_decode (tt : TokenType) (h : isCmpOp tt = true) :
    (match tt with
     | TokenType.greater => some BinaryOp.greater
     | TokenType.greaterEqual => some BinaryOp.greaterEqual
     | TokenType.less => some BinaryOp.less
     | TokenType.lessEqual => some BinaryOp.lessEqual
     | _ => none) ≠ none := by
  cases tt <;> first | decide | simp [isCmpOp] at h

theorem isTermOp_ne (tt : TokenType) (h : isTermOp tt = true) :
    kindIdx tt ≠ 24 := by
  cases tt <;> first | decide | simp [isTermOp] at h

theorem isTermOp_decode (tt : TokenType) (h : isTermOp tt = true) :
    (match tt with
     | TokenType.minus => some BinaryOp.subtract
     | TokenType.plus => some BinaryOp.add
     | _ => none) ≠ none := by
  cases tt <;> first | decide | simp [isTermOp] at h

theorem isFactorOp_ne (tt : TokenType) (h : isFactorOp tt = true) :
    kindIdx tt ≠ 24 := by
  cases tt <;> first | decide | simp [isFactorOp] at h

theorem isFactorOp_decode (tt : TokenType) (h : isFactorOp tt = true) :
    (match tt with
     | TokenType.divide => some BinaryOp.divide
     | TokenType.multiply => some BinaryOp.multiply
     | _ => none) ≠ none := by
  cases tt <;> first | decide | simp [isFactorOp] at h

theorem isMinusKind_ne (tt : TokenType) (h : isMinusKind tt = true) :
    kindIdx tt ≠ 24 := by
  cases tt <;> first | decide | simp [isMinusKind] at h

/-! Goodness of each production step, given goodness one level below. -/

theorem primaryStep_good (n : Nat) (ih : ParserFns)
    (hexpr : GoodFn n 7 ih.expression) : GoodFn (n + 1) 1 (primaryStep ih) := by
  intro ps hb
  unfold primaryStep
  split
  · exact RGood.okState _ ps _ (advance_le ps) (advance_tokens ps)
  · exact RGood.okState _ ps _ (advance_le ps) (advance_tokens ps)
  · exact RGood.okState _ ps _ (advance_le ps) (advance_tokens ps)
  · rename_i heq
    have hk : kindIdx (peek ps).token_type ≠ 24 := by rw [heq]; decide
    have hra := rem_advance ps hk
    have hre := hexpr (advance ps) (by omega)
    refine RGood.bindRes (hre.weaken (advance_le ps) (advance_tokens ps)) ?_
    intro e ps2 he
    refine RGood.bindRes (RGood.consumeRes _ _ _) ?_
    intro b ps3 hcons
    exact RGood.okSelf _ ps3
  · exact RGood.errRes _ ps

theorem unaryStep_good (n : Nat) (ih : ParserFns)
    (hun : GoodFn n 2 ih.unary) (hprim : GoodFn n 1 ih.primary) :
    GoodFn (n + 1) 2 (unaryStep ih) := by
  intro ps hb
  unfold unaryStep
  split
  · rename_i hmin
    have hk := isMinusKind_ne _ hmin
    have hra := rem_advance ps hk
    have hru := hun (advance ps) (by omega)
    refine RGood.bindRes (hru.weaken (advance_le ps) (advance_tokens ps)) ?_
    intro e ps2 he
    exact RGood.okSelf _ ps2
  · exact hprim ps (by omega)

theorem factorLoopStep_good (n : Nat) (ih : ParserFns)
    (hun : GoodFn n 2 ih.unary) (hloop : ∀ e, GoodFn n 2 (ih.factorLoop e))
    (e : Expr) : GoodFn (n + 1) 2 (factorLoopStep ih e) := by
  intro ps hb
  unfold factorLoopStep
  split
  · rename_i hop
    have hk := isFactorOp_ne _ hop
    split
    · rename_i operator heq
      have hra := rem_advance ps hk
      have hru := hun (advance ps) (by omega)
      refine RGood.bindRes (hru.weaken (advance_le ps) (advance_tokens ps)) ?_
      intro right ps2 hr
      obtain ⟨hm, _, _⟩ := hru
      obtain ⟨h1, h2⟩ := hm right ps2 hr
      have hrm : rem ps2 ≤ rem (advance ps) := rem_mono h1 h2
      exact hloop (.binary e operator right) ps2 (by omega)
    · rename_i heq
      exact absurd heq (isFactorOp_decode _ hop)
  · exact RGood.okSelf e ps

theorem factorStep_good (n : Nat) (ih : ParserFns)
    (hun : GoodFn n 2 ih.unary) (hloop : ∀ e, GoodFn n 2 (ih.factorLoop e)) :
    GoodFn (n + 1) 3 (factorStep ih) := by
  intro ps hb
  unfold factorStep
  have hru := hun ps (by omega)
  refine RGood.bindRes hru ?_
  intro e ps1 he
  obtain ⟨hm, _, _⟩ := hru
  obtain ⟨h1, h2⟩ := hm e ps1 he
  exact hloop e ps1 (by have := rem_mono h1 h2; omega)

theorem termLoopStep_good (n : Nat) (ih : ParserFns)
    (hfac : GoodFn n 3 ih.factor) (hloop : ∀ e, GoodFn n 3 (ih.termLoop e))
    (e : Expr) : GoodFn (n + 1) 3 (termLoopStep ih e) := by
  intro ps hb
  unfold termLoopStep
  split
  · rename_i hop
    have hk := isTermOp_ne _ hop
    split
    · rename_i operator heq
      have hra := rem_advance ps hk
      have hrf := hfac (advance ps) (by omega)
      refine RGood.bindRes (hrf.weaken (advance_le ps) (advance_tokens ps)) ?_
      intro right ps2 hr
      obtain ⟨hm, _, _⟩ := hrf
      obtain ⟨h1, h2⟩ := hm right ps2 hr
      have hrm : rem ps2 ≤ rem (advance ps) := rem_mono h1 h2
      exact hloop (.binary e operator right) ps2 (by omega)
    · rename_i heq
      exact absurd heq (isTermOp_decode _ hop)
  · exact RGood.okSelf e ps

theorem termStep_good (n : Nat) (ih : ParserFns)
    (hfac : GoodFn n 3 ih.factor) (hloop : ∀ e, GoodFn n 3 (ih.termLoop e)) :
    GoodFn (n + 1) 4 (termStep ih) := by
  intro ps hb
  unfold termStep
  have hrf := hfac ps (by omega)
  refine RGood.bindRes hrf ?_
  intro e ps1 he
  obtain ⟨hm, _, _⟩ := hrf
  obtain ⟨h1, h2⟩ := hm e ps1 he
  exact hloop e ps1 (by have := rem_mono h1 h2; omega)

theorem comparisonLoopStep_good (n : Nat) (ih : ParserFns)
    (hterm : GoodFn n 4 ih.term)
    (hloop : ∀ e, GoodFn n 4 (ih.comparisonLoop e)) (e : Expr) :
    GoodFn (n + 1) 4 (comparisonLoopStep ih e) := by
  intro ps hb
  unfold comparisonLoopStep
  split
  · rename_i hop
    have hk := isCmpOp_ne _ hop
    split
    · rename_i operator heq
      have hra := rem_advance ps hk
      have hrt := hterm (advance ps) (by omega)
      refine RGood.bindRes (hrt.weaken (advance_le ps) (advance_tokens ps)) ?_
      intro right ps2 hr
      obtain ⟨hm, _, _⟩ := hrt
      obtain ⟨h1, h2⟩ := hm right ps2 hr
      have hrm : rem ps2 ≤ rem (advance ps) := rem_mono h1 h2
      exact hloop (.binary e operator right) ps2 (by omega)
    · rename_i heq
      exact absurd heq (isCmpOp_decode _ hop)
  · exact RGood.okSelf e ps

theorem comparisonStep_good (n : Nat) (ih : ParserFns)
    (hterm : GoodFn n 4 ih.term)
    (hloop : ∀ e, GoodFn n 4 (ih.comparisonLoop e)) :
    GoodFn (n + 1) 5 (comparisonStep ih) := by
  intro ps hb
  unfold comparisonStep
  have hrt := hterm ps (by omega)
  refine RGood.bindRes hrt ?_
  intro e ps1 he
  obtain ⟨hm, _, _⟩ := hrt
  obtain ⟨h1, h2⟩ := hm e ps1 he
  exact hloop e ps1 (by have := rem_mono h1 h2; omega)

theorem equalityLoopStep_good (n : Nat) (ih : ParserFns)
    (hcmp : GoodFn n 5 ih.comparison)
    (hloop : ∀ e, GoodFn n 5 (ih.equalityLoop e)) (e : Expr) :
    GoodFn (n + 1) 5 (equalityLoopStep ih e) := by
  intro ps hb
  unfold equalityLoopStep
  split
  · rename_i hop
    have hk := isEqNeq_ne _ hop
    split
    · rename_i operator heq
      have hra := rem_advance ps hk
      have hrc := hcmp (advance ps) (by omega)
      refine RGood.bindRes (hrc.weaken (advance_le ps) (advance_tokens ps)) ?_
      intro right ps2 hr
      obtain ⟨hm, _, _⟩ := hrc
      obtain ⟨h1, h2⟩ := hm right ps2 hr
      have hrm : rem ps2 ≤ rem (advance ps) := rem_mono h1 h2
      exact hloop (.binary e operator right) ps2 (by omega)
    · rename_i heq
      exact absurd heq (isEqNeq_decode _ hop)
  · exact RGood.okSelf e ps

theorem equalityStep_good (n : Nat) (ih : ParserFns)
    (hcmp : GoodFn n 5 ih.comparison)
    (hloop : ∀ e, GoodFn n 5 (ih.equalityLoop e)) :
    GoodFn (n + 1) 6 (equalityStep ih) := by
  intro ps hb
  unfold equalityStep
  have hrc := hcmp ps (by omega)
  refine RGood.bindRes hrc ?_
  intro e ps1 he
  obtain ⟨hm, _, _⟩ := hrc
  obtain ⟨h1, h2⟩ := hm e ps1 he
  exact hloop e ps1 (by have := rem_mono h1 h2; omega)

theorem expressionStep_good (n : Nat) (ih : ParserFns)
    (heq : GoodFn n 6 ih.equality) : GoodFn (n + 1) 7 (expressionStep ih) := by
  intro ps hb
  unfold expressionStep
  exact heq ps (by omega)

theorem consume_rem {expected : TokenType} {msg : String} {ps : PState}
    {a : Unit} {ps1 : PState}
    (h : consume expected msg ps = .ok a ps1) (hk : kindIdx expected ≠ 24) :
    rem ps1 + 1 = rem ps ∧ ps1.tokens = ps.tokens := by
  obtain ⟨rfl, hsk⟩ := consume_cases _ _ _ h
  simp only [sameKind, decide_eq_true_eq] at hsk
  exact ⟨rem_advance ps (by omega), advance_tokens ps⟩

theorem letStatementStep_good (n : Nat) (ih : ParserFns)
    (hexpr : GoodFn n 7 ih.expression) :
    GoodStrictFn (n + 1) 7 (letStatementStep ih) := by
  intro ps hb
  have main : RGoodS ps (letStatementStep ih ps) := by
    unfold letStatementStep
    refine RGoodS.bindResStrict (RGoodS.consumeResStrict _ _ _ (by decide)) ?_
    intro u psm hc
    obtain ⟨hrm, hts⟩ := consume_rem hc (by decide)
    split
    · rename_i name heqid
      have hk2 : kindIdx (peek psm).token_type ≠ 24 := by
        rw [heqid]
        simp [kindIdx]
      have hra2 := rem_advance psm hk2
      refine RGood.bindRes
        ((RGood.consumeRes _ _ _).weaken (advance_le psm) (advance_tokens psm)) ?_
      intro u2 ps3 hc2
      obtain ⟨rfl, _⟩ := consume_cases _ _ _ hc2
      have hle3 : rem (advance (advance psm)) ≤ rem (advance psm) :=
        rem_mono (advance_le _) (advance_tokens _)
      have hre := hexpr (advance (advance psm)) (by omega)
      refine RGood.bindRes hre ?_
      intro value ps4 hv
      refine RGood.bindRes (RGood.consumeRes _ _ _) ?_
      intro u3 ps5 hc3
      exact RGood.okSelf _ ps5
    · exact RGood.errRes _ psm
  exact main.split

theorem ifStatementStep_good (n : Nat) (ih : ParserFns)
    (hexpr : GoodFn n 7 ih.expression) (hstmt : GoodStrictFn n 8 ih.statement) :
    GoodStrictFn (n + 1) 7 (ifStatementStep ih) := by
  intro ps hb
  have main : RGoodS ps (ifStatementStep ih ps) := by
    unfold ifStatementStep
    refine RGoodS.bindResStrict (RGoodS.consumeResStrict _ _ _ (by decide)) ?_
    intro u psm hc
    obtain ⟨hrm, hts⟩ := consume_rem hc (by decide)
    refine RGood.bindRes (RGood.consumeRes _ _ _) ?_
    intro u2 ps2 hc2
    obtain ⟨rfl, _⟩ := consume_cases _ _ _ hc2
    have hle2 : rem (advance psm) ≤ rem psm :=
      rem_mono (advance_le _) (advance_tokens _)
    have hre := hexpr (advance psm) (by omega)
    refine RGood.bindRes hre ?_
    intro cond ps3 hv
    obtain ⟨hmE, _, _⟩ := hre
    obtain ⟨he1, he2⟩ := hmE cond ps3 hv
    have hle3 : rem ps3 ≤ rem (advance psm) := rem_mono he1 he2
    refine RGood.bindRes (RGood.consumeRes _ _ _) ?_
    intro u3 ps4 hc3
    obtain ⟨rfl, _⟩ := consume_cases _ _ _ hc3
    have hle4 : rem (advance ps3) ≤ rem ps3 :=
      rem_mono (advance_le _) (advance_tokens _)
    have hrs := (hstmt (advance ps3) (by omega)).1
    refine RGood.bindRes hrs ?_
    intro thenStmt ps5 hts5
    obtain ⟨hmS, _, _⟩ := hrs
    obtain ⟨hs1, hs2⟩ := hmS thenStmt ps5 hts5
    have hle5 : rem ps5 ≤ rem (advance ps3) := rem_mono hs1 hs2
    obtain ⟨hmt1, hmt2⟩ := matchToken_snd ps5 .elseKw
    have hle6 : rem (matchToken ps5 .elseKw).2 ≤ rem ps5 := rem_mono hmt1 hmt2
    split
    · have hrs2 := (hstmt (matchToken ps5 .elseKw).2 (by omega)).1
      refine RGood.bindRes (hrs2.weaken hmt1 hmt2) ?_
      intro elseStmt ps6 _
      exact RGood.okSelf _ ps6
    · exact RGood.okState _ ps5 _ hmt1 hmt2
  exact main.split

theorem whileStatementStep_good (n : Nat) (ih : ParserFns)
    (hexpr : GoodFn n 7 ih.expression) (hstmt : GoodStrictFn n 8 ih.statement) :
    GoodStrictFn (n + 1) 7 (whileStatementStep ih) := by
  intro ps hb
  have main : RGoodS ps (whileStatementStep ih ps) := by
    unfold whileStatementStep
    refine RGoodS.bindResStrict (RGoodS.consumeResStrict _ _ _ (by decide)) ?_
    intro u psm hc
    obtain ⟨hrm, hts⟩ := consume_rem hc (by decide)
    refine RGood.bindRes (RGood.consumeRes _ _ _) ?_
    intro u2 ps2 hc2
    obtain ⟨rfl, _⟩ := consume_cases _ _ _ hc2
    have hle2 : rem (advance psm) ≤ rem psm :=
      rem_mono (advance_le _) (advance_tokens _)
    have hre := hexpr (advance psm) (by omega)
    refine RGood.bindRes hre ?_
    intro cond ps3 hv
    obtain ⟨hmE, _, _⟩ := hre
    obtain ⟨he1, he2⟩ := hmE cond ps3 hv
    have hle3 : rem ps3 ≤ rem (advance psm) := rem_mono he1 he2
    refine RGood.bindRes (RGood.consumeRes _ _ _) ?_
    intro u3 ps4 hc3
    obtain ⟨rfl, _⟩ := consume_cases _ _ _ hc3
    have hle4 : rem (advance ps3) ≤ rem ps3 :=
      rem_mono (advance_le _) (advance_tokens _)
    have hrs := (hstmt (advance ps3) (by omega)).1
    refine RGood.bindRes hrs ?_
    intro body ps5 _
    exact RGood.okSelf _ ps5
  exact main.split

theorem printStatementStep_good (n : Nat) (ih : ParserFns)
    (hexpr : GoodFn n 7 ih.expression) :
    GoodStrictFn (n + 1) 7 (printStatementStep ih) := by
  intro ps hb
  have main : RGoodS ps (printStatementStep ih ps) := by
    unfold printStatementStep
    refine RGoodS.bindResStrict (RGoodS.consumeResStrict _ _ _ (by decide)) ?_
    intro u psm hc
    obtain ⟨hrm, hts⟩ := consume_rem hc (by decide)
    refine RGood.bindRes (RGood.consumeRes _ _ _) ?_
    intro u2 ps2 hc2
    obtain ⟨rfl, _⟩ := consume_cases _ _ _ hc2
    have hle2 : rem (advance psm) ≤ rem psm :=
      rem_mono (advance_le _) (advance_tokens _)
    have hre := hexpr (advance psm) (by omega)
    refine RGood.bindRes hre ?_
    intro e ps3 hv
    refine RGood.bindRes (RGood.consumeRes _ _ _) ?_
    intro u3 ps4 hc3
    refine RGood.bindRes (RGood.consumeRes _ _ _) ?_
    intro u4 ps5 hc4
    exact RGood.okSelf _ ps5
  exact main.split

theorem blockStatementStep_good (n : Nat) (ih : ParserFns)
    (hloop : ∀ acc, GoodFn n 9 (ih.blockLoop acc)) :
    GoodStrictFn (n + 1) 7 (blockStatementStep ih) := by
  intro ps hb
  have main : RGoodS ps (blockStatementStep ih ps) := by
    unfold blockStatementStep
    refine RGoodS.bindResStrict (RGoodS.consumeResStrict _ _ _ (by decide)) ?_
    intro u psm hc
    obtain ⟨hrm, hts⟩ := consume_rem hc (by decide)
    have hrl := hloop [] psm (by omega)
    refine RGood.bindRes hrl ?_
    intro stmts ps2 _
    refine RGood.bindRes (RGood.consumeRes _ _ _) ?_
    intro u2 ps3 _
    exact RGood.okSelf _ ps3
  exact main.split

theorem isRBraceOrEof_false_ne (tt : TokenType)
    (h : ¬isRBraceOrEof tt = true) : kindIdx tt ≠ 24 := by
  cases tt <;> simp_all [isRBraceOrEof, kindIdx]

theorem isEofKind_false_ne (tt : TokenType)
    (h : ¬isEofKind tt = true) : kindIdx tt ≠ 24 := by
  cases tt <;> simp_all [isEofKind, kindIdx]

theorem rem_strict {ps ps1 : PState} (hk : kindIdx (peek ps).token_type ≠ 24)
    (hc : ps.current < ps1.current) (ht : ps1.tokens = ps.tokens) :
    rem ps1 < rem ps := by
  have hlt := peek_lt ps hk
  have hlen : ps1.tokens.length = ps.tokens.length := by rw [ht]
  unfold rem
  omega

theorem blockLoopStep_good (n : Nat) (ih : ParserFns)
    (hstmt : GoodStrictFn n 8 ih.statement)
    (hloop : ∀ acc, GoodFn n 9 (ih.blockLoop acc)) (acc : List Stmt) :
    GoodFn (n + 1) 9 (blockLoopStep ih acc) := by
  intro ps hb
  unfold blockLoopStep
  split
  · exact RGood.okSelf acc ps
  · rename_i hcond
    have hk := isRBraceOrEof_false_ne _ hcond
    have hrs := hstmt ps (by omega)
    refine RGood.bindRes hrs.1 ?_
    intro s ps1 hok
    obtain ⟨hmS, _, _⟩ := hrs.1
    obtain ⟨_, h2⟩ := hmS s ps1 hok
    have hstrict := hrs.2 s ps1 hok
    have hdec : rem ps1 < rem ps := rem_strict hk hstrict h2
    exact hloop (acc ++ [s]) ps1 (by omega)

theorem parseLoopStep_good (n : Nat) (ih : ParserFns)
    (hstmt : GoodStrictFn n 8 ih.statement)
    (hloop : ∀ acc, GoodFn n 9 (ih.parseLoop acc)) (acc : List Stmt) :
    GoodFn (n + 1) 9 (parseLoopStep ih acc) := by
  intro ps hb
  unfold parseLoopStep
  split
  · exact RGood.okSelf acc ps
  · rename_i hcond
    have hk := isEofKind_false_ne _ hcond
    have hrs := hstmt ps (by omega)
    refine RGood.bindRes hrs.1 ?_
    intro s ps1 hok
    obtain ⟨hmS, _, _⟩ := hrs.1
    obtain ⟨_, h2⟩ := hmS s ps1 hok
    have hstrict := hrs.2 s ps1 hok
    have hdec : rem ps1 < rem ps := rem_strict hk hstrict h2
    exact hloop (acc ++ [s]) ps1 (by omega)

theorem parseStmtsStep_good (n : Nat) (ih : ParserFns)
    (hloop : ∀ acc, GoodFn n 9 (ih.parseLoop acc)) :
    GoodFn (n + 1) 10 (parseStmtsStep ih) := by
  intro ps hb
  unfold parseStmtsStep
  exact hloop [] ps (by omega)

theorem statementStep_good (n : Nat) (ih : ParserFns)
    (hlet : GoodStrictFn n 7 ih.letStatement)
    (hif : GoodStrictFn n 7 ih.ifStatement)
    (hwhile : GoodStrictFn n 7 ih.whileStatement)
    (hprint : GoodStrictFn n 7 ih.printStatement)
    (hblock : GoodStrictFn n 7 ih.blockStatement)
    (hexpr : GoodFn n 7 ih.expression) :
    GoodStrictFn (n + 1) 8 (statementStep ih) := by
  intro ps hb
  have main : RGoodS ps (statementStep ih ps) := by
    unfold statementStep
    split
    · exact RGoodS.ofParts (hlet ps (by omega)).1 (hlet ps (by omega)).2
    · exact RGoodS.ofParts (hif ps (by omega)).1 (hif ps (by omega)).2
    · exact RGoodS.ofParts (hwhile ps (by omega)).1 (hwhile ps (by omega)).2
    · exact RGoodS.ofParts (hprint ps (by omega)).1 (hprint ps (by omega)).2
    · exact RGoodS.ofParts (hblock ps (by omega)).1 (hblock ps (by omega)).2
    · rename_i name heqid
      have hk : kindIdx (peek ps).token_type ≠ 24 := by
        rw [heqid]
        simp [kindIdx]
      have hra := rem_advance ps hk
      split
      · rename_i hassign
        have hk2 : kindIdx (peek (advance ps)).token_type ≠ 24 := by
          simp only [sameKind, decide_eq_true_eq] at hassign
          rw [show kindIdx TokenType.assign = 7 from rfl] at hassign
          omega
        have hra2 := rem_advance (advance ps) hk2
        have hre := hexpr (advance (advance ps)) (by omega)
        refine RGoodS.ofGoodStart (RGood.bindRes hre ?_) ?_ ?_
        · intro value ps3 hv
          refine RGood.bindRes (RGood.consumeRes _ _ _) ?_
          intro u ps4 _
          exact RGood.okSelf _ ps4
        · calc ps.current < (advance ps).current := by
                rw [advance_strict ps hk]
                omega
            _ ≤ (advance (advance ps)).current := advance_le _
        · rw [advance_tokens, advance_tokens]
      · have hre := hexpr ps (by omega)
        refine RGood.bindResS hre ?_
        intro expr ps1 hv
        refine RGoodS.bindResStrict (RGoodS.consumeResStrict _ _ _ (by decide)) ?_
        intro u ps2 _
        exact RGood.okSelf _ ps2
    · have hre := hexpr ps (by omega)
      refine RGood.bindResS hre ?_
      intro expr ps1 hv
      refine RGoodS.bindResStrict (RGoodS.consumeResStrict _ _ _ (by decide)) ?_
      intro u ps2 _
      exact RGood.okSelf _ ps2
  exact main.split

theorem fnsGood_zero : FnsGood 0 parserBase := by
  refine ⟨?_, ?_, ?_, ?_, ?_, ?_, ?_, ?_, ?_, ?_,
          ?_, ?_, ?_, ?_, ?_, ?_, ?_, ?_, ?_, ?_⟩ <;>
    first
      | exact fun ps hb => absurd hb (by omega)
      | exact fun x ps hb => absurd hb (by omega)

theorem fnsGood : ∀ n, FnsGood n (parserFns n) := by
  intro n
  induction n with
  | zero => exact fnsGood_zero
  | succ n ihn =>
    obtain ⟨h1, h2, h3, h4, h5, h6, h7, h8, h9, h10,
            h11, h12, h13, h14, h15, h16, h17, h18, h19, h20⟩ := ihn
    rw [parserFns_succ]
    exact ⟨statementStep_good n _ h2 h3 h4 h5 h6 h10,
           letStatementStep_good n _ h10,
           ifStatementStep_good n _ h10 h1,
           whileStatementStep_good n _ h10 h1,
           printStatementStep_good n _ h10,
           blockStatementStep_good n _ h7,
           blockLoopStep_good n _ h1 h7,
           parseStmtsStep_good n _ h9,
           parseLoopStep_good n _ h1 h9,
           expressionStep_good n _ h11,
           equalityStep_good n _ h13 h12,
           equalityLoopStep_good n _ h13 h12,
           comparisonStep_good n _ h15 h14,
           comparisonLoopStep_good n _ h15 h14,
           termStep_good n _ h17 h16,
           termLoopStep_good n _ h17 h16,
           factorStep_good n _ h19 h18,
           factorLoopStep_good n _ h19 h18,
           unaryStep_good n _ h19 h20,
           primaryStep_good n _ h10⟩

/-! ## The `unreachable!()` arms are never reached, at any fuel. -/

theorem PRes.bind_nf {α β : Type} {r : PRes α} {f : α → PState → PRes β}
    (hr : r ≠ .fatal) (hf : ∀ a psm, r = .ok a psm → f a psm ≠ .fatal) :
    r.bind f ≠ .fatal := by
  cases r with
  | ok a psm => exact hf a psm rfl
  | err e => nofun
  | fatal => exact absurd rfl hr
  | fuelOut => nofun

theorem consume_nf (expected : TokenType) (msg : String) (ps : PState) :
    consume expected msg ps ≠ .fatal := by
  unfold consume
  split <;> nofun

/-- Per-production no-`fatal` facts, at every fuel level. -/
def FnsNF (fns : ParserFns) : Prop :=
  (∀ ps, fns.statement ps ≠ .fatal) ∧
  (∀ ps, fns.letStatement ps ≠ .fatal) ∧
  (∀ ps, fns.ifStatement ps ≠ .fatal) ∧
  (∀ ps, fns.whileStatement ps ≠ .fatal) ∧
  (∀ ps, fns.printStatement ps ≠ .fatal) ∧
  (∀ ps, fns.blockStatement ps ≠ .fatal) ∧
  (∀ acc ps, fns.blockLoop acc ps ≠ .fatal) ∧
  (∀ ps, fns.parseStmts ps ≠ .fatal) ∧
  (∀ acc ps, fns.parseLoop acc ps ≠ .fatal) ∧
  (∀ ps, fns.expression ps ≠ .fatal) ∧
  (∀ ps, fns.equality ps ≠ .fatal) ∧
  (∀ e ps, fns.equalityLoop e ps ≠ .fatal) ∧
  (∀ ps, fns.comparison ps ≠ .fatal) ∧
  (∀ e ps, fns.comparisonLoop e ps ≠ .fatal) ∧
  (∀ ps, fns.term ps ≠ .fatal) ∧
  (∀ e ps, fns.termLoop e ps ≠ .fatal) ∧
  (∀ ps, fns.factor ps ≠ .fatal) ∧
  (∀ e ps, fns.factorLoop e ps ≠ .fatal) ∧
  (∀ ps, fns.unary ps ≠ .fatal) ∧
  (∀ ps, fns.primary ps ≠ .fatal)

theorem fnsNF : ∀ n, FnsNF (parserFns n) := by
  intro n
  induction n with
  | zero =>
    refine ⟨?_, ?_, ?_, ?_, ?_, ?_, ?_, ?_, ?_, ?_,
            ?_, ?_, ?_, ?_, ?_, ?_, ?_, ?_, ?_, ?_⟩ <;>
      exact fun ps => nofun
  | succ n ihn =>
    obtain ⟨g1, g2, g3, g4, g5, g6, g7, g8, g9, g10,
            g11, g12, g13, g14, g15, g16, g17, g18, g19, g20⟩ := ihn
    rw [parserFns_succ]
    refine ⟨?_, ?_, ?_, ?_, ?_, ?_, ?_, ?_, ?_, ?_,
            ?_, ?_, ?_, ?_, ?_, ?_, ?_, ?_, ?_, ?_⟩
    · intro ps
      show statementStep (parserFns n) ps ≠ PRes.fatal
      unfold statementStep
      split
      · exact g2 ps
      · exact g3 ps
      · exact g4 ps
      · exact g5 ps
      · exact g6 ps
      · split
        · exact PRes.bind_nf (g10 _)
            (fun v psm _ => PRes.bind_nf (consume_nf _ _ _) (fun _ _ _ => nofun))
        · exact PRes.bind_nf (g10 _)
            (fun v psm _ => PRes.bind_nf (consume_nf _ _ _) (fun _ _ _ => nofun))
      · exact PRes.bind_nf (g10 _)
          (fun v psm _ => PRes.bind_nf (consume_nf _ _ _) (fun _ _ _ => nofun))
    · intro ps
      show letStatementStep (parserFns n) ps ≠ PRes.fatal
      unfold letStatementStep
      refine PRes.bind_nf (consume_nf _ _ _) ?_
      intro u psm _
      split
      · exact PRes.bind_nf (consume_nf _ _ _)
          (fun _ _ _ => PRes.bind_nf (g10 _)
            (fun _ _ _ => PRes.bind_nf (consume_nf _ _ _) (fun _ _ _ => nofun)))
      · nofun
    · intro ps
      show ifStatementStep (parserFns n) ps ≠ PRes.fatal
      unfold ifStatementStep
      refine PRes.bind_nf (consume_nf _ _ _) ?_
      intro u psm _
      refine PRes.bind_nf (consume_nf _ _ _) ?_
      intro u2 ps2 _
      refine PRes.bind_nf (g10 _) ?_
      intro cond ps3 _
      refine PRes.bind_nf (consume_nf _ _ _) ?_
      intro u3 ps4 _
      refine PRes.bind_nf (g1 _) ?_
      intro thenStmt ps5 _
      split
      · exact PRes.bind_nf (g1 _) (fun _ _ _ => nofun)
      · nofun
    · intro ps
      show whileStatementStep (parserFns n) ps ≠ PRes.fatal
      unfold whileStatementStep
      refine PRes.bind_nf (consume_nf _ _ _) ?_
      intro u psm _
      refine PRes.bind_nf (consume_nf _ _ _) ?_
      intro u2 ps2 _
      refine PRes.bind_nf (g10 _) ?_
      intro cond ps3 _
      refine PRes.bind_nf (consume_nf _ _ _) ?_
      intro u3 ps4 _
      exact PRes.bind_nf (g1 _) (fun _ _ _ => nofun)
    · intro ps
      show printStatementStep (parserFns n) ps ≠ PRes.fatal
      unfold printStatementStep
      refine PRes.bind_nf (consume_nf _ _ _) ?_
      intro u psm _
      refine PRes.bind_nf (consume_nf _ _ _) ?_
      intro u2 ps2 _
      refine PRes.bind_nf (g10 _) ?_
      intro e ps3 _
      refine PRes.bind_nf (consume_nf _ _ _) ?_
      intro u3 ps4 _
      exact PRes.bind_nf (consume_nf _ _ _) (fun _ _ _ => nofun)
    · intro ps
      show blockStatementStep (parserFns n) ps ≠ PRes.fatal
      unfold blockStatementStep
      refine PRes.bind_nf (consume_nf _ _ _) ?_
      intro u psm _
      refine PRes.bind_nf (g7 _ _) ?_
      intro stmts ps2 _
      exact PRes.bind_nf (consume_nf _ _ _) (fun _ _ _ => nofun)
    · intro acc ps
      show blockLoopStep (parserFns n) acc ps ≠ PRes.fatal
      unfold blockLoopStep
      split
      · nofun
      · exact PRes.bind_nf (g1 _) (fun s ps1 _ => g7 _ _)
    · intro ps
      show parseStmtsStep (parserFns n) ps ≠ PRes.fatal
      unfold parseStmtsStep
      exact g9 _ _
    · intro acc ps
      show parseLoopStep (parserFns n) acc ps ≠ PRes.fatal
      unfold parseLoopStep
      split
      · nofun
      · exact PRes.bind_nf (g1 _) (fun s ps1 _ => g9 _ _)
    · intro ps
      show expressionStep (parserFns n) ps ≠ PRes.fatal
      unfold expressionStep
      exact g11 ps
    · intro ps
      show equalityStep (parserFns n) ps ≠ PRes.fatal
      unfold equalityStep
      exact PRes.bind_nf (g13 _) (fun e ps1 _ => g12 _ _)
    · intro e ps
      show equalityLoopStep (parserFns n) e ps ≠ PRes.fatal
      unfold equalityLoopStep
      split
      · rename_i hop
        split
        · exact PRes.bind_nf (g13 _) (fun right ps2 _ => g12 _ _)
        · rename_i heq
          exact absurd heq (isEqNeq_decode _ hop)
      · nofun
    · intro ps
      show comparisonStep (parserFns n) ps ≠ PRes.fatal
      unfold comparisonStep
      exact PRes.bind_nf (g15 _) (fun e ps1 _ => g14 _ _)
    · intro e ps
      show comparisonLoopStep (parserFns n) e ps ≠ PRes.fatal
      unfold comparisonLoopStep
      split
      · rename_i hop
        split
        · exact PRes.bind_nf (g15 _) (fun right ps2 _ => g14 _ _)
        · rename_i heq
          exact absurd heq (isCmpOp_decode _ hop)
      · nofun
    · intro ps
      show termStep (parserFns n) ps ≠ PRes.fatal
      unfold termStep
      exact PRes.bind_nf (g17 _) (fun e ps1 _ => g16 _ _)
    · intro e ps
      show termLoopStep (parserFns n) e ps ≠ PRes.fatal
      unfold termLoopStep
      split
      · rename_i hop
        split
        · exact PRes.bind_nf (g17 _) (fun right ps2 _ => g16 _ _)
        · rename_i heq
          exact absurd heq (isTermOp_decode _ hop)
      · nofun
    · intro ps
      show factorStep (parserFns n) ps ≠ PRes.fatal
      unfold factorStep
      exact PRes.bind_nf (g19 _) (fun e ps1 _ => g18 _ _)
    · intro e ps
      show factorLoopStep (parserFns n) e ps ≠ PRes.fatal
      unfold factorLoopStep
      split
      · rename_i hop
        split
        · exact PRes.bind_nf (g19 _) (fun right ps2 _ => g18 _ _)
        · rename_i heq
          exact absurd heq (isFactorOp_decode _ hop)
      · nofun
    · intro ps
      show unaryStep (parserFns n) ps ≠ PRes.fatal
      unfold unaryStep
      split
      · exact PRes.bind_nf (g19 _) (fun operand ps2 _ => nofun)
      · exact g20 ps
    · intro ps
      show primaryStep (parserFns n) ps ≠ PRes.fatal
      unfold primaryStep
      split
      · nofun
      · nofun
      · nofun
      · exact PRes.bind_nf (g10 _)
          (fun e ps2 _ => PRes.bind_nf (consume_nf _ _ _) (fun _ _ _ => nofun))
      · nofun

/-- C10: on every finite token sequence (also one missing the trailing
`EndOfInput`) the parser terminates with `Ok` or `Err` and never panics:
reading at or past the end of the token vector yields the default `Eof`
token so no index is out of bounds, an unexpected token produces an
`Err`, and the `unreachable!()` arms of the operator decoders are never
reached at any fuel. -/
theorem parser_total_no_panic (tokens : List Token) :
    (∀ fuel, parseTokens fuel tokens ≠ .fatal) ∧
    (∃ fuel, (∃ stmts ps1, parseTokens fuel tokens = .ok stmts ps1) ∨
             (∃ e, parseTokens fuel tokens = .err e)) ∧
    (∀ ps : PState, ps.tokens.length ≤ ps.current → peek ps = eofToken) ∧
    parseTokens 50 [⟨.plus, 1⟩, ⟨.eof, 1⟩] = .err "Unexpected token at line 1" ∧
    parseTokens 50 [⟨.number 1, 1⟩]
      = .err "Expected \x27;\x27 after expression at line 0" := by
  refine ⟨?_, ?_, peek_past, by rfl, by rfl⟩
  · intro fuel
    exact (fnsNF fuel).2.2.2.2.2.2.2.1 ⟨tokens, 0⟩
  · obtain ⟨hpm, hfat, hfuel⟩ :=
      (fnsGood (20 * tokens.length + 10)).2.2.2.2.2.2.2.1 ⟨tokens, 0⟩
        (by simp [rem])
    refine ⟨20 * tokens.length + 10, ?_⟩
    cases hres : parseTokens (20 * tokens.length + 10) tokens with
    | ok stmts ps1 => exact Or.inl ⟨stmts, ps1, rfl⟩
    | err e => exact Or.inr ⟨e, rfl⟩
    | fatal => exact absurd hres hfat
    | fuelOut => exact absurd hres hfuel

theorem parser_total_no_panic_witness :
    parseTokens 0 [] ≠ .fatal ∧ peek ⟨[], 5⟩ = eofToken :=
  ⟨(parser_total_no_panic []).1 0,
   (parser_total_no_panic []).2.2.1 ⟨[], 5⟩ (by simp)⟩

end Ferris
